import Mathlib

/-!
Verification development for the py-cmm-parser code-intelligence indexer.

The Lean definitions below are a shallow embedding of the Python source:

* `CMM.detect_visibility`        embeds `PythonNormalizer._detect_visibility` (normalizer.py)
* `CMM.PYTHON_BUILTINS`, `CMM.collect_call_names`, `CMM.extract_calls_from_body`
                                 embed the stop list and `TreeSitterParser._extract_calls_from_body`
                                 (parser.py)
* `CMM.find_enclosing_entity`    embeds `SymbolMapper.find_enclosing_entity` (symbol_mapper.py)
* `CMM.Location.from_lsp_response` embeds `Location.from_lsp_response` (lsp_client.py)
* the `CMM.DB` state and its operations embed `SQLiteStorage` (storage.py)
* the migration state machine embeds `migrate_database` and its helpers (cli.py)

Machine values are modelled with `Nat`/`Int`/`String`; Python dictionaries whose
keys may be absent are modelled with `Option` fields (a key present with value
`None` is identified with an absent key); JSON values are modelled by the
inductive `CMM.JVal` with association-list objects.
-/

namespace CMM

/-! ## Normalizer: visibility detection (normalizer.py, `_detect_visibility`) -/

/-- Python `s.startswith(pre)`, expressed on the character sequences of the
two strings. -/
def py_startswith (s pre : String) : Bool :=
  pre.data.isPrefixOf s.data

/-- Python `s.endswith(suf)`, expressed on the character sequences of the two
strings. -/
def py_endswith (s suf : String) : Bool :=
  suf.data.isSuffixOf s.data

/-- Embedding of `PythonNormalizer._detect_visibility(name, entity_type)`.
The `entity_type` argument is kept to mirror the source signature; the source
never reads it. -/
def detect_visibility (name : String) (_entity_type : String) : String :=
  if py_startswith name "__" && py_endswith name "__" then "public"
  else if py_startswith name "_" then "private"
  else "public"

/-- The spec sentence P6 formalised literally: the name begins with exactly one
underscore, i.e. it starts with an underscore but not with two. -/
def beginsWithExactlyOneUnderscore (name : String) : Bool :=
  py_startswith name "_" && !(py_startswith name "__")

/-! ## Parser: call extraction and the built-in stop list (parser.py) -/

/-- Embedding of the module-level constant `PYTHON_BUILTINS` of parser.py,
listed in source order. -/
def PYTHON_BUILTINS : List String :=
  ["self", "cls", "print", "len", "str", "int", "float", "bool", "list",
   "dict", "set", "tuple", "range", "enumerate", "zip", "map", "filter",
   "sorted", "sum", "min", "max", "abs", "all", "any", "isinstance",
   "issubclass", "hasattr", "getattr", "setattr", "open", "type", "id",
   "hash", "repr", "format", "input", "next", "iter"]

/-- Embedding of the `call_names` accumulation loop of
`TreeSitterParser._extract_calls_from_body`: every captured call-target
identifier is added to a set unless it is a Python built-in.  The Python `set`
is modelled as an insertion-ordered duplicate-free list. -/
def collect_call_names (captured : List String) : List String :=
  captured.foldl
    (fun acc n =>
      if PYTHON_BUILTINS.contains n then acc
      else if acc.contains n then acc
      else acc ++ [n])
    []

/-- Embedding of the dependency-emission loop of
`TreeSitterParser._extract_calls_from_body`: one `(name, "calls")` pair per
collected unique call name. -/
def extract_calls_from_body (captured : List String) : List (String × String) :=
  (collect_call_names captured).map (fun n => (n, "calls"))

/-! ## Symbol mapper: innermost enclosing entity (symbol_mapper.py) -/

/-- Embedding of the mapper-local `Entity` dataclass of symbol_mapper.py. -/
structure MEntity where
  id : Nat
  name : String
  file_path : String
  line_start : Int
  line_end : Int
deriving DecidableEq, Repr

/-- The containment test `entity.line_start <= line <= entity.line_end`. -/
def containsLine (e : MEntity) (line : Int) : Bool :=
  e.line_start ≤ line && line ≤ e.line_end

/-- The span `entity.line_end - entity.line_start` used for the
innermost-entity comparison. -/
def span (e : MEntity) : Int :=
  e.line_end - e.line_start

/-- One iteration of the selection loop of `SymbolMapper.find_enclosing_entity`:
`best_span` starts at infinity (modelled by the `none` state) and a candidate
replaces the current best only when its span is strictly smaller. -/
def bestStep (line : Int) (best : Option MEntity) (e : MEntity) : Option MEntity :=
  if containsLine e line then
    match best with
    | none => some e
    | some b => if span e < span b then some e else best
  else best

/-- The selection loop of `SymbolMapper.find_enclosing_entity` over the
entity list of the file. -/
def bestEnclosing (entities : List MEntity) (line : Int) : Option MEntity :=
  entities.foldl (bestStep line) none

/-- Embedding of `SymbolMapper.find_enclosing_entity(file_path, line)` for a
file whose entity rows (as returned by `_load_file_entities`, ordered by
ascending `line_start`) are `entities`: returns `best_match.id` or absence. -/
def find_enclosing_entity (entities : List MEntity) (line : Int) : Option Nat :=
  (bestEnclosing entities line).map (·.id)

/-! ## LSP client: definition-response parsing (lsp_client.py) -/

/-- JSON values as handed to `Location.from_lsp_response`; objects are
association lists.  `null` also stands for a Python `None` result. -/
inductive JVal where
  | null : JVal
  | bool (b : Bool) : JVal
  | num (n : Int) : JVal
  | str (s : String) : JVal
  | arr (xs : List JVal) : JVal
  | obj (fields : List (String × JVal)) : JVal

/-- Python truthiness of a JSON value (`if not result`). -/
def truthy : JVal → Bool
  | .null => false
  | .bool b => b
  | .num n => n != 0
  | .str s => s != ""
  | .arr xs => !xs.isEmpty
  | .obj fs => !fs.isEmpty

/-- `d.get(key, default)` on a JSON object: the default is returned when the
receiver is not an object or the key is absent.  (The Python code only ever
applies `.get` to dictionaries; a present key wins even over `null`.) -/
def jGetD (v : JVal) (key : String) (dflt : JVal) : JVal :=
  match v with
  | .obj fields =>
    match fields.find? (fun kv => kv.1 == key) with
    | some kv => kv.2
    | none => dflt
  | _ => dflt

/-- Embedding of the `Location` dataclass of lsp_client.py.  The fields carry
the raw JSON values the Python constructor receives. -/
structure Location where
  uri : JVal
  line : JVal
  character : JVal

/-- The field-extraction tail of `Location.from_lsp_response`:
`uri = result.get('uri', '')`, `range_data = result.get('range', {})`,
`start = range_data.get('start', {})`, then `start.get('line', 0)` and
`start.get('character', 0)`. -/
def extractLocation (result : JVal) : Location :=
  let uri := jGetD result "uri" (.str "")
  let range_data := jGetD result "range" (.obj [])
  let start := jGetD range_data "start" (.obj [])
  { uri := uri
    line := jGetD start "line" (.num 0)
    character := jGetD start "character" (.num 0) }

/-- Embedding of `Location.from_lsp_response(result)`: falsy results parse to
absence; a list is reduced to its first element; then the fields are
extracted with their defaults. -/
def Location.from_lsp_response (result : JVal) : Option Location :=
  if !truthy result then none
  else
    match result with
    | .arr [] => none
    | .arr (x :: _) => some (extractLocation x)
    | r => some (extractLocation r)

/-! ## Store: data model (storage.py, schema of migration_v0.4.sql) -/

/-- Row of the files table.  The integer primary key is modelled by `id`,
allocated from the counter `DB.nextFileId`. -/
structure FileRow where
  id : Nat
  file_path : String
  file_hash : String
  schema_version : String
  created_at : String
  updated_at : String
deriving DecidableEq, Repr

/-- Row of the entities table.  Entity UUIDs are modelled as naturals
allocated from the counter `DB.nextId` (uuid4 values are fresh on every
draw, which the strictly increasing counter captures). -/
structure EntityRow where
  id : Nat
  name : String
  type : String
  visibility : String
  parent_id : Option Nat
  line_start : Nat
  line_end : Nat
deriving DecidableEq, Repr

/-- Row of the metadata table. -/
structure MetadataRow where
  entity_id : Nat
  file_path : String
  raw_docstring : String
  signature : String
  cmm_type : String
  method_kind : Option String
  created_at : String
  updated_at : String
deriving DecidableEq, Repr

/-- Row of the relations table. -/
structure RelationRow where
  from_id : Nat
  to_id : Option Nat
  to_name : String
  rel_type : String
  is_verified : Bool
deriving DecidableEq, Repr

/-- The database state: the four tables in insertion order plus the two
id-allocation counters. -/
structure DB where
  files : List FileRow
  entities : List EntityRow
  metadata : List MetadataRow
  relations : List RelationRow
  nextFileId : Nat
  nextId : Nat
deriving DecidableEq, Repr

/-- The freshly initialised database (empty tables). -/
def emptyDB : DB := ⟨[], [], [], [], 0, 0⟩

/-- A raw dependency entry of a parser-produced entity dictionary: either the
old v0.2 plain-string form or the v0.3 dictionary form.  `Option` fields
model dictionary keys that may be absent (a key present with Python `None`
is identified with an absent key). -/
inductive RawDep where
  | str (s : String)
  | dict (name : Option String) (rel_type : Option String)
deriving DecidableEq, Repr

/-- A parser-produced entity dictionary as consumed by
`_save_entity_recursive` and produced by `get_file`:
name, type, visibility, docstring, cmm_type, optional method_kind, optional
line span keys, dependencies and nested methods.  Entity ids and timestamps
live only in the database rows, not in these dictionaries (`get_file` output
additionally carries the generated id, which both the spec and the claims
quotient away). -/
inductive PyEntity where
  | mk (name type visibility docstring cmm_type : String)
       (method_kind : Option String)
       (line_start line_end : Option Nat)
       (dependencies : List RawDep)
       (methods : List PyEntity)

/-- Embedding of the CMMEntity dataclass of domain.py. -/
structure CMMEntity where
  schema_version : String
  entities : List PyEntity

/-! ## Store: write path (storage.py) -/

/-- The name / rel_type extraction of the dependency loop of
`_save_entity_recursive`: a plain string maps to the generic rel_type, a
dictionary contributes its name and its rel_type (defaulted), and a falsy
name (absent or empty) is skipped. -/
def depNameRel : RawDep → Option (String × String)
  | .str s => if s = "" then none else some (s, "dependencies")
  | .dict n r =>
    match n with
    | none => none
    | some nm => if nm = "" then none else some (nm, r.getD "dependencies")

/-- The dependency-insertion loop of `_save_entity_recursive`: relations are
inserted with a NULL to_id and deduplicated through the seen set keyed by
(name, rel_type). -/
def processDeps (fromId : Nat) : List RawDep → List (String × String) → List RelationRow
  | [], _ => []
  | d :: rest, seen =>
    match depNameRel d with
    | none => processDeps fromId rest seen
    | some (nm, rt) =>
      if seen.contains (nm, rt) then processDeps fromId rest seen
      else ⟨fromId, none, nm, rt, false⟩ :: processDeps fromId rest ((nm, rt) :: seen)

mutual

/-- Embedding of `SQLiteStorage._save_entity_recursive`: skip when the depth
limit is exceeded, otherwise insert the entity row under a fresh id, its
metadata row, its deduplicated relations, then recurse into the methods. -/
def save_entity_recursive (e : PyEntity) (file_path now : String)
    (parent_id : Option Nat) (depth : Nat) (db : DB) : DB :=
  if depth > 100 then db
  else
    match e with
    | .mk name ty vis doc cmm mkind ls le deps methods =>
      let entity_id := db.nextId
      let db1 : DB :=
        { db with
          entities := db.entities ++
            [⟨entity_id, name, ty, vis, parent_id, ls.getD 0, le.getD 0⟩]
          nextId := entity_id + 1 }
      let db2 : DB :=
        { db1 with
          metadata := db1.metadata ++
            [⟨entity_id, file_path, doc, "", cmm, mkind, now, now⟩] }
      let db3 : DB :=
        { db2 with relations := db2.relations ++ processDeps entity_id deps [] }
      save_entities_list methods file_path now (some entity_id) (depth + 1) db3

/-- The loop over a list of sibling entities, threading the database. -/
def save_entities_list (es : List PyEntity) (file_path now : String)
    (parent_id : Option Nat) (depth : Nat) (db : DB) : DB :=
  match es with
  | [] => db
  | e :: rest =>
    save_entities_list rest file_path now parent_id depth
      (save_entity_recursive e file_path now parent_id depth db)

end

/-- One round of the ON DELETE CASCADE closure on entities.parent_id: an
entity whose parent is dead becomes dead. -/
def cascadeStep (entities : List EntityRow) (dead : List Nat) : List Nat :=
  dead ++ (entities.filter (fun e =>
    !dead.contains e.id &&
      (match e.parent_id with
       | some p => dead.contains p
       | none => false))).map (·.id)

/-- Iterated cascade closure; iterating as many times as there are entity
rows reaches the fixed point for any parent chain. -/
def iterateCascade : Nat → List EntityRow → List Nat → List Nat
  | 0, _, dead => dead
  | n + 1, entities, dead => iterateCascade n entities (cascadeStep entities dead)

/-- Modelled from the spec: the schema script migration_v0.4.sql is not under
src/, so the delete semantics come from §4.3 of the spec: deleting an entity
cascades to descendant entities (entities.parent_id), to its metadata row
(metadata.entity_id) and to its outgoing relations (relations.from_id);
relations pointing at it by to_id survive and dangle. -/
def deleteEntities (db : DB) (ids : List Nat) : DB :=
  let dead := iterateCascade db.entities.length db.entities ids
  { db with
    entities := db.entities.filter (fun e => !dead.contains e.id)
    metadata := db.metadata.filter (fun m => !dead.contains m.entity_id)
    relations := db.relations.filter (fun r => !dead.contains r.from_id) }

/-- The fresh-insert branch of `SQLiteStorage.save_file`: insert the file row
and save the entity hierarchy.  The file hash (computed by the source from
the file bytes) and the timestamp are passed as arguments. -/
def saveFileFresh (file_path file_hash now : String) (m : CMMEntity) (db : DB) : DB :=
  let db1 : DB :=
    { db with
      files := db.files ++
        [⟨db.nextFileId, file_path, file_hash, m.schema_version, now, now⟩]
      nextFileId := db.nextFileId + 1 }
  save_entities_list m.entities file_path now none 0 db1

/-- Embedding of `SQLiteStorage.upsert_file`: identical hash is a no-op; a
changed hash updates the file row, deletes the file's previous entities (by
the ids recorded in metadata; the delete cascades), and re-inserts the new
model; an unknown path falls through to the fresh-insert branch of
save_file (the source delegates to save_file, which cannot hit its
integrity-error branch because the row is known to be absent). -/
def upsert_file (file_path file_hash now : String) (m : CMMEntity) (db : DB) : DB :=
  match db.files.find? (fun f => f.file_path == file_path) with
  | some fr =>
    if fr.file_hash == file_hash then db
    else
      let db1 : DB :=
        { db with
          files := db.files.map (fun f =>
            if f.id == fr.id then
              { f with
                file_hash := file_hash
                schema_version := m.schema_version
                updated_at := now }
            else f) }
      let ids := (db1.metadata.filter (fun md => md.file_path == file_path)).map
        (·.entity_id)
      let db2 := deleteEntities db1 ids
      save_entities_list m.entities file_path now none 0 db2
  | none => saveFileFresh file_path file_hash now m db

/-- Embedding of `SQLiteStorage.save_file`: a duplicate file path raises an
integrity error on the file insert, which the source absorbs by rolling back
and delegating to upsert_file; a fresh path inserts directly. -/
def save_file (file_path file_hash now : String) (m : CMMEntity) (db : DB) : DB :=
  if db.files.any (fun f => f.file_path == file_path) then
    upsert_file file_path file_hash now m db
  else
    saveFileFresh file_path file_hash now m db

/-- Embedding of `SQLiteStorage.save_verified_relation`: look up the target
entity's name (absent target: return unchanged); upsert keyed on
(from_id, to_name, rel_type) — on conflict update to_id and is_verified,
otherwise insert a new row.  The insert is subject to the foreign key
relations.from_id → entities.id (enforced per connection), so an unknown
from_id raises and rolls back, leaving the state unchanged. -/
def save_verified_relation (from_id to_id : Nat) (rel_type : String)
    (is_verified : Bool) (db : DB) : DB :=
  match db.entities.find? (fun e => e.id == to_id) with
  | none => db
  | some target =>
    let to_name := target.name
    if db.relations.any (fun r =>
        r.from_id == from_id && r.to_name == to_name && r.rel_type == rel_type) then
      { db with
        relations := db.relations.map (fun r =>
          if r.from_id == from_id && r.to_name == to_name &&
              r.rel_type == rel_type then
            { r with to_id := some to_id, is_verified := is_verified }
          else r) }
    else
      if db.entities.any (fun e => e.id == from_id) then
        { db with
          relations := db.relations ++
            [⟨from_id, some to_id, to_name, rel_type, is_verified⟩] }
      else db

/-! ## Store: read path (storage.py, get_file) -/

/-- The Python truthiness filter `if method_kind:` applied by `get_file`
before adding the method_kind key. -/
def truthyStr : Option String → Option String
  | some s => if s = "" then none else some s
  | none => none

/-- The dependency list `get_file` attaches to the entity with id `eid`: the
relation rows with that from_id, in table order, formatted as
name / rel_type dictionaries. -/
def rowToDepList (relations : List RelationRow) (eid : Nat) : List RawDep :=
  (relations.filter (fun r => r.from_id == eid)).map
    (fun r => RawDep.dict (some r.to_name) (some r.rel_type))

/-- Assembly of one output entity dictionary of `get_file` from its joined
entity and metadata rows: no line span keys are produced by the source
query, so the line fields are absent. -/
def assembleEntity (relations : List RelationRow) (pr : EntityRow × MetadataRow)
    (methods : List PyEntity) : PyEntity :=
  .mk pr.1.name pr.1.type pr.1.visibility pr.2.raw_docstring pr.2.cmm_type
    (truthyStr pr.2.method_kind) none none (rowToDepList relations pr.1.id) methods

/-- The parent/child rewiring of `get_file`, expressed as a recursive
materialisation: the children of a row are the rows naming it as parent, in
row order.  The source builds the same tree by mutating shared dictionaries;
the fuel argument (instantiated with the row count, which bounds the depth
of any acyclic parent chain) makes the recursion structural. -/
def buildEntityTree (relations : List RelationRow)
    (rows : List (EntityRow × MetadataRow)) :
    Nat → EntityRow × MetadataRow → PyEntity
  | 0, pr => assembleEntity relations pr []
  | fuel + 1, pr =>
    assembleEntity relations pr
      ((rows.filter (fun c => c.1.parent_id == some pr.1.id)).map
        (buildEntityTree relations rows fuel))

/-- The `rows` local of `SQLiteStorage.get_file`: the entities of the file
joined (in entity-table order) with their metadata row. -/
def fileRows (file_path : String) (db : DB) : List (EntityRow × MetadataRow) :=
  db.entities.filterMap (fun e =>
    (db.metadata.find? (fun md =>
      md.entity_id == e.id && md.file_path == file_path)).map
      (fun md => (e, md)))

/-- The `top_level_entities` selection of `SQLiteStorage.get_file`: rows
whose parent id is null or falls outside the file's row set.  (Entity ids
are uuid strings in the source, so the Python truthiness test on parent_id
is exactly the null test.) -/
def fileRoots (file_path : String) (db : DB) : List (EntityRow × MetadataRow) :=
  (fileRows file_path db).filter (fun pr =>
    match pr.1.parent_id with
    | none => true
    | some pid => !((fileRows file_path db).map (fun pr => pr.1.id)).contains pid)

/-- Embedding of `SQLiteStorage.get_file`: absent file row gives absence;
otherwise join the entities of the file with their metadata (in entity-table
order), attach relations, and rewire children under parents; rows whose
parent id falls outside the file's row set become roots. -/
def get_file (file_path : String) (db : DB) : Option CMMEntity :=
  match db.files.find? (fun f => f.file_path == file_path) with
  | none => none
  | some fr =>
    some ⟨fr.schema_version,
      (fileRoots file_path db).map
        (buildEntityTree db.relations (fileRows file_path db)
          (fileRows file_path db).length)⟩

/-! ## Store: canonical image of a model under save-then-load -/

/-- The dependency list an entity's raw dependencies turn into after being
saved (deduplicated with the seen set) and loaded back (dictionary form). -/
def canonDepsAux : List RawDep → List (String × String) → List RawDep
  | [], _ => []
  | d :: rest, seen =>
    match depNameRel d with
    | none => canonDepsAux rest seen
    | some (nm, rt) =>
      if seen.contains (nm, rt) then canonDepsAux rest seen
      else .dict (some nm) (some rt) :: canonDepsAux rest ((nm, rt) :: seen)

/-- Canonical dependency list (empty seen set). -/
def canonDeps (deps : List RawDep) : List RawDep :=
  canonDepsAux deps []

mutual

/-- The image of one parser entity under save-then-load: dropped entirely
beyond the depth limit; otherwise line spans are lost, method_kind is
filtered by truthiness, and dependencies are normalised. -/
def canonEntity (depth : Nat) : PyEntity → Option PyEntity
  | .mk name ty vis doc cmm mkind _ls _le deps methods =>
    if depth > 100 then none
    else some (.mk name ty vis doc cmm (truthyStr mkind) none none
      (canonDeps deps) (canonList (depth + 1) methods))

/-- The image of a sibling list under save-then-load. -/
def canonList (depth : Nat) : List PyEntity → List PyEntity
  | [] => []
  | e :: rest =>
    match canonEntity depth e with
    | none => canonList depth rest
    | some ce => ce :: canonList depth rest

end

/-- The image of a whole file model under save-then-load. -/
def canonModel (m : CMMEntity) : CMMEntity :=
  ⟨m.schema_version, canonList 0 m.entities⟩

/-! ## Store: flattened row image of a save (proof-side specification) -/

/-- The rows a save produces: joined entity/metadata pairs, relations, and
the final value of the id counter. -/
structure SaveOut where
  pairs : List (EntityRow × MetadataRow)
  rels : List RelationRow
  next : Nat
deriving DecidableEq, Repr

mutual

/-- The rows `save_entity_recursive` appends for one entity, starting from
counter value c. -/
def flatEntity (fp now : String) (pid : Option Nat) (depth c : Nat) :
    PyEntity → SaveOut
  | .mk name ty vis doc cmm mkind ls le deps methods =>
    if depth > 100 then ⟨[], [], c⟩
    else
      let er : EntityRow := ⟨c, name, ty, vis, pid, ls.getD 0, le.getD 0⟩
      let mr : MetadataRow := ⟨c, fp, doc, "", cmm, mkind, now, now⟩
      let rest := flatList fp now (some c) (depth + 1) (c + 1) methods
      ⟨(er, mr) :: rest.pairs, processDeps c deps [] ++ rest.rels, rest.next⟩

/-- The rows `save_entities_list` appends for a sibling list, starting from
counter value c. -/
def flatList (fp now : String) (pid : Option Nat) (depth c : Nat) :
    List PyEntity → SaveOut
  | [] => ⟨[], [], c⟩
  | e :: rest =>
    let o1 := flatEntity fp now pid depth c e
    let o2 := flatList fp now pid depth o1.next rest
    ⟨o1.pairs ++ o2.pairs, o1.rels ++ o2.rels, o2.next⟩

end

/-! ## Store: invariants and reachability -/

/-- The key triple guarded by the unique index of the relations table. -/
def relKey (r : RelationRow) : Nat × String × String :=
  (r.from_id, r.to_name, r.rel_type)

/-- No two relation rows share (from_id, to_name, rel_type). -/
def RelKeysUnique (db : DB) : Prop :=
  db.relations.Pairwise (fun r1 r2 => relKey r1 ≠ relKey r2)

/-- Every entity id and every relation from_id lies below the allocation
counter, so freshly drawn ids are really fresh. -/
def IdsBounded (db : DB) : Prop :=
  (∀ e ∈ db.entities, e.id < db.nextId) ∧
    (∀ r ∈ db.relations, r.from_id < db.nextId)

/-- The inductive invariant maintained by all write operations. -/
def StoreInv (db : DB) : Prop :=
  RelKeysUnique db ∧ IdsBounded db

/-- Database states reachable from the fresh database by the public write
operations. -/
inductive Reachable : DB → Prop where
  | init : Reachable emptyDB
  | upsert (p fh now : String) (m : CMMEntity) {db : DB} :
      Reachable db → Reachable (upsert_file p fh now m db)
  | save (p fh now : String) (m : CMMEntity) {db : DB} :
      Reachable db → Reachable (save_file p fh now m db)
  | verify (a b : Nat) (rt : String) (v : Bool) {db : DB} :
      Reachable db → Reachable (save_verified_relation a b rt v db)

/-! ## Migration (cli.py) -/

/-- File-system state relevant to a migration: the content of the database
file and of the backup file (absent files are none). -/
structure MigState where
  db : Option String
  backup : Option String
deriving DecidableEq, Repr

/-- Outcome of running a full scan into a fresh database, as an abstract
parameter: success produces the scanned content; failure leaves whatever
the interrupted scan had written. -/
inductive ScanOutcome where
  | ok (content : String)
  | fail (leftover : Option String)
deriving DecidableEq, Repr

/-- Outcome of executing a migration SQL script. -/
inductive SqlOutcome where
  | ok (newContent : String)
  | fail
deriving DecidableEq, Repr

/-- Embedding of `_create_backup`: copy the database file to
db_path.from_version.backup. -/
def create_backup (s : MigState) : MigState :=
  { s with backup := s.db }

/-- Embedding of `_perform_rescan_migration`: remove the database file, then
re-scan; the boolean flags a propagated error.  No handler restores the
backup on failure. -/
def perform_rescan_migration (outcome : ScanOutcome) (s : MigState) :
    MigState × Bool :=
  let s1 : MigState := { s with db := none }
  match outcome with
  | .ok c => ({ s1 with db := some c }, false)
  | .fail leftover => ({ s1 with db := leftover }, true)

/-- Embedding of `_apply_sql_migration` (defined in cli.py but called by no
supported migration path): apply the script; on failure copy the backup file
back over the database before propagating. -/
def apply_sql_migration (outcome : SqlOutcome) (s : MigState) :
    MigState × Bool :=
  match outcome with
  | .ok c => ({ s with db := some c }, false)
  | .fail => ({ s with db := s.backup }, true)

/-- The migration pairs `migrate_database` accepts. -/
def supported_pair (fromv tov : String) : Bool :=
  (fromv == "v0.2" && tov == "v0.3") ||
    ((fromv == "v0.3" || fromv == "v0.3.1") && tov == "v0.4")

/-- Embedding of `migrate_database`: a missing database is recreated by a
scan (only from v0.2); an existing database is backed up and every supported
pair then performs a full re-scan migration; unsupported pairs error out. -/
def migrate_database (fromv tov : String) (outcome : ScanOutcome)
    (s : MigState) : MigState × Bool :=
  match s.db with
  | none =>
    if fromv != "v0.2" then (s, true)
    else
      match outcome with
      | .ok c => ({ s with db := some c }, false)
      | .fail leftover => ({ s with db := leftover }, true)
  | some _ =>
    let s1 := create_backup s
    if supported_pair fromv tov then perform_rescan_migration outcome s1
    else (s1, true)

/-- Proof-side description of the store contents after ingesting a model
into the fresh database. -/
def savedState (m : CMMEntity) (p fh now : String) : DB :=
  ⟨[⟨0, p, fh, m.schema_version, now, now⟩],
   (flatList p now none 0 0 m.entities).pairs.map Prod.fst,
   (flatList p now none 0 0 m.entities).pairs.map Prod.snd,
   (flatList p now none 0 0 m.entities).rels,
   1, (flatList p now none 0 0 m.entities).next⟩

/-- A concrete store with two entities, used to witness the
save_verified_relation theorem. -/
def witnessStore : DB :=
  ⟨[], [⟨1, "f", "function", "public", none, 0, 0⟩,
        ⟨2, "g", "function", "public", none, 1, 1⟩], [], [], 0, 3⟩

/-! ## Theorems: normalizer -/

lemma py_startswith_double_single (name : String)
    (h : py_startswith name "__" = true) : py_startswith name "_" = true := by
  unfold py_startswith at *
  rw [List.isPrefixOf_iff_prefix] at *
  exact List.IsPrefix.trans (by decide) h

/-- C5, counterexample: the name `__foo` does not begin with exactly one
underscore, yet the normalizer classifies it as private, refuting the
claimed iff. -/
theorem detect_visibility_not_exactly_one_underscore :
    detect_visibility "__foo" "function" = "private" ∧
      beginsWithExactlyOneUnderscore "__foo" = false := by
  constructor <;> decide

/-- C5, amended: an extracted entity is private iff its name starts with an
underscore and is not framed by double underscores on both sides; every
other name is public. -/
theorem detect_visibility_characterization :
    ∀ (name ty : String),
      (detect_visibility name ty = "private" ↔
        (py_startswith name "_" = true ∧
          (py_startswith name "__" && py_endswith name "__") = false)) ∧
      (detect_visibility name ty = "public" ↔
        ¬ (py_startswith name "_" = true ∧
          (py_startswith name "__" && py_endswith name "__") = false)) := by
  intro name ty
  unfold detect_visibility
  by_cases h1 : (py_startswith name "__" && py_endswith name "__") = true
  · have h2 : py_startswith name "_" = true :=
      py_startswith_double_single name (by
        have := h1
        simp only [Bool.and_eq_true] at this
        exact this.1)
    simp [h1, h2]
  · have h1' : (py_startswith name "__" && py_endswith name "__") = false :=
      Bool.eq_false_iff.mpr h1
    by_cases h2 : py_startswith name "_" = true
    · simp [h1', h2]
    · have h2' : py_startswith name "_" = false := Bool.eq_false_iff.mpr h2
      simp [h1', h2']

/-- C5, witness: a single-underscore name is detected as private via the
characterization. -/
theorem detect_visibility_characterization_witness :
    detect_visibility "_helper" "function" = "private" :=
  (detect_visibility_characterization "_helper" "function").1.mpr (by decide)

/-! ## Theorems: parser call extraction -/

lemma collect_call_names_fold_inv :
    ∀ (captured acc : List String), acc.Nodup →
      (∀ n ∈ acc, n ∉ PYTHON_BUILTINS) →
      (captured.foldl
          (fun acc n =>
            if PYTHON_BUILTINS.contains n then acc
            else if acc.contains n then acc
            else acc ++ [n]) acc).Nodup ∧
        ∀ n ∈ captured.foldl
            (fun acc n =>
              if PYTHON_BUILTINS.contains n then acc
              else if acc.contains n then acc
              else acc ++ [n]) acc,
          n ∉ PYTHON_BUILTINS := by
  intro captured
  induction captured with
  | nil => intro acc h1 h2; exact ⟨h1, h2⟩
  | cons n rest ih =>
    intro acc h1 h2
    simp only [List.foldl_cons]
    by_cases hb : n ∈ PYTHON_BUILTINS
    · simpa [hb] using ih acc h1 h2
    · by_cases hm : n ∈ acc
      · simpa [hb, hm] using ih acc h1 h2
      · have h1' : (acc ++ [n]).Nodup := by
          simp [List.nodup_append, h1, hm]
        have h2' : ∀ m ∈ acc ++ [n], m ∉ PYTHON_BUILTINS := by
          intro m hm2
          rcases List.mem_append.mp hm2 with h | h
          · exact h2 m h
          · rcases List.mem_singleton.mp h with rfl
            exact hb
        simpa [hb, hm] using ih (acc ++ [n]) h1' h2'

/-- C6: the call extractor emits at most one calls dependency per distinct
call-target name, never emits a name from the built-in stop list, and the
stop list contains the receiver identifiers self and cls. -/
theorem extract_calls_from_body_spec :
    ∀ captured : List String,
      ((extract_calls_from_body captured).map Prod.fst).Nodup ∧
      (∀ p ∈ extract_calls_from_body captured,
        p.2 = "calls" ∧ p.1 ∉ PYTHON_BUILTINS) ∧
      "self" ∈ PYTHON_BUILTINS ∧ "cls" ∈ PYTHON_BUILTINS := by
  intro captured
  have base := collect_call_names_fold_inv captured [] (by simp) (by simp)
  refine ⟨?_, ?_, by decide, by decide⟩
  · unfold extract_calls_from_body collect_call_names
    rw [List.map_map]
    simpa [Function.comp_def] using base.1
  · intro p hp
    unfold extract_calls_from_body collect_call_names at hp
    rcases List.mem_map.mp hp with ⟨n, hn, rfl⟩
    exact ⟨rfl, base.2 n hn⟩

/-- C6, witness: scanning a body whose call captures are helper, self,
helper emits the helper dependency as a calls relation with a name outside
the stop list. -/
theorem extract_calls_from_body_spec_witness :
    (("helper", "calls") : String × String).2 = "calls" ∧
      (("helper", "calls") : String × String).1 ∉ PYTHON_BUILTINS :=
  (extract_calls_from_body_spec ["helper", "self", "helper"]).2.1
    ("helper", "calls") (by decide)

/-! ## Theorems: symbol mapper -/

lemma bestFold_none_iff (line : Int) :
    ∀ (es : List MEntity) (b : Option MEntity),
      es.foldl (bestStep line) b = none ↔
        (b = none ∧ ∀ e ∈ es, containsLine e line = false) := by
  intro es
  induction es with
  | nil => intro b; simp
  | cons e rest ih =>
    intro b
    simp only [List.foldl_cons]
    rw [ih]
    cases hc : containsLine e line with
    | false => simp [bestStep, hc, and_assoc]
    | true =>
      cases b with
      | none => simp [bestStep, hc]
      | some y =>
        by_cases h : span e < span y <;> simp [bestStep, hc, h]

lemma bestFold_mem (line : Int) :
    ∀ (es : List MEntity) (b : Option MEntity) (x : MEntity),
      es.foldl (bestStep line) b = some x →
      b = some x ∨ (containsLine x line = true ∧ x ∈ es) := by
  intro es
  induction es with
  | nil => intro b x h; exact Or.inl h
  | cons e rest ih =>
    intro b x h
    simp only [List.foldl_cons] at h
    rcases ih (bestStep line b e) x h with h' | h'
    · by_cases hc : containsLine e line = true
      · cases b with
        | none =>
          simp [bestStep, hc] at h'
          exact Or.inr ⟨h' ▸ hc, h' ▸ List.mem_cons_self e rest⟩
        | some y =>
          by_cases hs : span e < span y
          · simp [bestStep, hc, hs] at h'
            exact Or.inr ⟨h' ▸ hc, h' ▸ List.mem_cons_self e rest⟩
          · simp [bestStep, hc, hs] at h'
            exact Or.inl (by rw [h'])
      · have hc' : containsLine e line = false := Bool.eq_false_iff.mpr hc
        simp [bestStep, hc'] at h'
        exact Or.inl (by rw [h'])
    · exact Or.inr ⟨h'.1, List.mem_cons_of_mem e h'.2⟩

lemma bestFold_min (line : Int) :
    ∀ (es : List MEntity) (b : Option MEntity) (x : MEntity),
      es.foldl (bestStep line) b = some x →
      (∀ y, b = some y → span x ≤ span y) ∧
        (∀ e ∈ es, containsLine e line = true → span x ≤ span e) := by
  intro es
  induction es with
  | nil =>
    intro b x h
    constructor
    · intro y hy
      rw [hy] at h
      cases h
      exact le_refl _
    · intro e he
      cases he
  | cons e rest ih =>
    intro b x h
    simp only [List.foldl_cons] at h
    by_cases hc : containsLine e line = true
    · cases b with
      | none =>
        have step : bestStep line none e = some e := by simp [bestStep, hc]
        rw [step] at h
        have := ih (some e) x h
        refine ⟨?_, ?_⟩
        · intro y hy; cases hy
        · intro e2 he2 hc2
          rcases List.mem_cons.mp he2 with rfl | he2'
          · exact this.1 e2 rfl
          · exact this.2 e2 he2' hc2
      | some y0 =>
        by_cases hs : span e < span y0
        · have step : bestStep line (some y0) e = some e := by
            simp [bestStep, hc, hs]
          rw [step] at h
          have := ih (some e) x h
          refine ⟨?_, ?_⟩
          · intro y hy
            cases hy
            exact le_of_lt (lt_of_le_of_lt (this.1 e rfl) hs)
          · intro e2 he2 hc2
            rcases List.mem_cons.mp he2 with rfl | he2'
            · exact this.1 e2 rfl
            · exact this.2 e2 he2' hc2
        · have step : bestStep line (some y0) e = some y0 := by
            simp [bestStep, hc, hs]
          rw [step] at h
          have := ih (some y0) x h
          refine ⟨?_, ?_⟩
          · intro y hy
            cases hy
            exact this.1 y0 rfl
          · intro e2 he2 hc2
            rcases List.mem_cons.mp he2 with rfl | he2'
            · exact le_trans (this.1 y0 rfl) (le_of_not_lt hs)
            · exact this.2 e2 he2' hc2
    · have hc' : containsLine e line = false := Bool.eq_false_iff.mpr hc
      have step : bestStep line b e = b := by simp [bestStep, hc']
      rw [step] at h
      have := ih b x h
      refine ⟨this.1, ?_⟩
      intro e2 he2 hc2
      rcases List.mem_cons.mp he2 with rfl | he2'
      · exact absurd hc2 (by simp [hc'])
      · exact this.2 e2 he2' hc2

lemma bestFold_strict (line : Int) :
    ∀ (es : List MEntity) (b : Option MEntity) (x y : MEntity),
      es.foldl (bestStep line) b = some x → b = some y →
      x = y ∨ span x < span y := by
  intro es
  induction es with
  | nil =>
    intro b x y h hb
    rw [hb] at h
    cases h
    exact Or.inl rfl
  | cons e rest ih =>
    intro b x y h hb
    subst hb
    simp only [List.foldl_cons] at h
    by_cases hc : containsLine e line = true
    · by_cases hs : span e < span y
      · have step : bestStep line (some y) e = some e := by
          simp [bestStep, hc, hs]
        rw [step] at h
        rcases ih (some e) x e h rfl with rfl | h'
        · exact Or.inr hs
        · exact Or.inr (lt_trans h' hs)
      · have step : bestStep line (some y) e = some y := by
          simp [bestStep, hc, hs]
        rw [step] at h
        exact ih (some y) x y h rfl
    · have hc' : containsLine e line = false := Bool.eq_false_iff.mpr hc
      have step : bestStep line (some y) e = some y := by simp [bestStep, hc']
      rw [step] at h
      exact ih (some y) x y h rfl

lemma bestFold_first (line : Int) :
    ∀ (es : List MEntity) (b : Option MEntity) (x : MEntity),
      es.foldl (bestStep line) b = some x →
      b = some x ∨
        ∃ l₁ l₂, es = l₁ ++ x :: l₂ ∧
          ∀ e ∈ l₁, containsLine e line = true → span x < span e := by
  intro es
  induction es with
  | nil => intro b x h; exact Or.inl h
  | cons e rest ih =>
    intro b x h
    simp only [List.foldl_cons] at h
    by_cases hc : containsLine e line = true
    · cases b with
      | none =>
        have step : bestStep line none e = some e := by simp [bestStep, hc]
        rw [step] at h
        rcases ih (some e) x h with h' | h'
        · cases h'
          exact Or.inr ⟨[], rest, rfl, by intro e2 h2 _; cases h2⟩
        · rcases h' with ⟨l₁, l₂, rfl, hstrict⟩
          by_cases hx : x = e
          · subst hx
            exact Or.inr ⟨[], l₁ ++ x :: l₂, rfl, by intro e2 h2 _; cases h2⟩
          · have hsx : span x < span e := by
              rcases bestFold_strict line (l₁ ++ x :: l₂) (some e) x e h rfl with
                rfl | hlt
              · exact absurd rfl hx
              · exact hlt
            refine Or.inr ⟨e :: l₁, l₂, rfl, ?_⟩
            intro e2 h2 hc2
            rcases List.mem_cons.mp h2 with rfl | h2'
            · exact hsx
            · exact hstrict e2 h2' hc2
      | some y0 =>
        by_cases hs : span e < span y0
        · have step : bestStep line (some y0) e = some e := by
            simp [bestStep, hc, hs]
          rw [step] at h
          rcases ih (some e) x h with h' | h'
          · cases h'
            exact Or.inr ⟨[], rest, rfl, by intro e2 h2 _; cases h2⟩
          · rcases h' with ⟨l₁, l₂, rfl, hstrict⟩
            by_cases hx : x = e
            · subst hx
              exact Or.inr ⟨[], l₁ ++ x :: l₂, rfl, by intro e2 h2 _; cases h2⟩
            · have hsx : span x < span e := by
                rcases bestFold_strict line (l₁ ++ x :: l₂) (some e) x e h rfl with
                  rfl | hlt
                · exact absurd rfl hx
                · exact hlt
              refine Or.inr ⟨e :: l₁, l₂, rfl, ?_⟩
              intro e2 h2 hc2
              rcases List.mem_cons.mp h2 with rfl | h2'
              · exact hsx
              · exact hstrict e2 h2' hc2
        · have step : bestStep line (some y0) e = some y0 := by
            simp [bestStep, hc, hs]
          rw [step] at h
          rcases ih (some y0) x h with h' | h'
          · exact Or.inl h'
          · rcases h' with ⟨l₁, l₂, rfl, hstrict⟩
            rcases bestFold_strict line (l₁ ++ x :: l₂) (some y0) x y0 h rfl with
              rfl | hlt
            · exact Or.inl rfl
            · refine Or.inr ⟨e :: l₁, l₂, rfl, ?_⟩
              intro e2 h2 hc2
              rcases List.mem_cons.mp h2 with rfl | h2'
              · exact lt_of_lt_of_le hlt (le_of_not_lt hs)
              · exact hstrict e2 h2' hc2
    · have hc' : containsLine e line = false := Bool.eq_false_iff.mpr hc
      have step : bestStep line b e = b := by simp [bestStep, hc']
      rw [step] at h
      rcases ih b x h with h' | h'
      · exact Or.inl h'
      · rcases h' with ⟨l₁, l₂, rfl, hstrict⟩
        refine Or.inr ⟨e :: l₁, l₂, rfl, ?_⟩
        intro e2 h2 hc2
        rcases List.mem_cons.mp h2 with rfl | h2'
        · exact absurd hc2 (by simp [hc'])
        · exact hstrict e2 h2' hc2

/-- C7: find_enclosing_entity returns absence exactly when no entity of the
file contains the queried line, and otherwise returns the id of a containing
entity of minimal span. -/
theorem find_enclosing_entity_spec :
    ∀ (es : List MEntity) (line : Int),
      (find_enclosing_entity es line = none ↔
        ∀ e ∈ es, containsLine e line = false) ∧
      (∀ i, find_enclosing_entity es line = some i →
        ∃ e, e ∈ es ∧ e.id = i ∧ containsLine e line = true ∧
          ∀ e2 ∈ es, containsLine e2 line = true → span e ≤ span e2) := by
  intro es line
  constructor
  · unfold find_enclosing_entity
    rw [Option.map_eq_none']
    unfold bestEnclosing
    rw [bestFold_none_iff line es none]
    simp
  · intro i hi
    unfold find_enclosing_entity at hi
    rcases Option.map_eq_some'.mp hi with ⟨x, hx, rfl⟩
    have hmem := bestFold_mem line es none x hx
    have hmin := bestFold_min line es none x hx
    rcases hmem with h | h
    · cases h
    · exact ⟨x, h.2, rfl, h.1, hmin.2⟩

/-- C7, witness: in a file with a module entity spanning lines 0-10 and a
method spanning lines 2-4, line 3 resolves to the method (id 2), the
innermost containing entity. -/
theorem find_enclosing_entity_spec_witness :
    ∃ e, e ∈ [MEntity.mk 1 "mod" "f.py" 0 10, MEntity.mk 2 "meth" "f.py" 2 4] ∧
      e.id = 2 ∧ containsLine e 3 = true ∧
      ∀ e2 ∈ [MEntity.mk 1 "mod" "f.py" 0 10, MEntity.mk 2 "meth" "f.py" 2 4],
        containsLine e2 3 = true → span e ≤ span e2 :=
  (find_enclosing_entity_spec
    [MEntity.mk 1 "mod" "f.py" 0 10, MEntity.mk 2 "meth" "f.py" 2 4] 3).2
    2 (by decide)

/-- C10: on an entity list sorted by ascending line_start (as produced by
the loading query), the returned entity has minimal span among the
containing entities, and among the containing entities of that same minimal
span its line_start is smallest. -/
theorem find_enclosing_entity_tiebreak :
    ∀ (es : List MEntity) (line : Int) (i : Nat),
      List.Pairwise (fun a b => a.line_start ≤ b.line_start) es →
      find_enclosing_entity es line = some i →
      ∃ e, e ∈ es ∧ e.id = i ∧ containsLine e line = true ∧
        (∀ e2 ∈ es, containsLine e2 line = true → span e ≤ span e2) ∧
        (∀ e2 ∈ es, containsLine e2 line = true → span e2 = span e →
          e.line_start ≤ e2.line_start) := by
  intro es line i hsorted hi
  unfold find_enclosing_entity at hi
  rcases Option.map_eq_some'.mp hi with ⟨x, hx, rfl⟩
  have hmem := bestFold_mem line es none x hx
  have hmin := bestFold_min line es none x hx
  have hfirst := bestFold_first line es none x hx
  rcases hmem with h | hmemr
  · cases h
  rcases hfirst with h | ⟨l₁, l₂, rfl, hstrict⟩
  · cases h
  refine ⟨x, hmemr.2, rfl, hmemr.1, hmin.2, ?_⟩
  intro e2 he2 hc2 hspan
  rcases List.mem_append.mp he2 with h2 | h2
  · exact absurd hspan (ne_of_lt (hstrict e2 h2 hc2)).symm
  · rcases List.mem_cons.mp h2 with rfl | h2'
    · exact le_refl _
    · have := (List.pairwise_append.mp hsorted).2.1
      exact (List.pairwise_cons.mp this).1 e2 h2'

/-- C10, witness: two entities with identical span both contain line 1; the
lookup returns the one with the smaller line_start (id 1). -/
theorem find_enclosing_entity_tiebreak_witness :
    ∃ e, e ∈ [MEntity.mk 1 "a" "f.py" 0 2, MEntity.mk 2 "b" "f.py" 1 3] ∧
      e.id = 1 ∧ containsLine e 1 = true ∧
      (∀ e2 ∈ [MEntity.mk 1 "a" "f.py" 0 2, MEntity.mk 2 "b" "f.py" 1 3],
        containsLine e2 1 = true → span e ≤ span e2) ∧
      (∀ e2 ∈ [MEntity.mk 1 "a" "f.py" 0 2, MEntity.mk 2 "b" "f.py" 1 3],
        containsLine e2 1 = true → span e2 = span e →
          e.line_start ≤ e2.line_start) :=
  find_enclosing_entity_tiebreak
    [MEntity.mk 1 "a" "f.py" 0 2, MEntity.mk 2 "b" "f.py" 1 3] 1 1
    (by decide) (by decide)

/-! ## Theorems: LSP definition-response parsing -/

/-! ## Theorems: migration -/

/-- C8, counterexample: the supported migration v0.2 to v0.3 on an existing
database whose re-scan fails propagates the error with the database file
removed, not restored from the backup. -/
theorem migrate_database_failure_not_restored :
    migrate_database "v0.2" "v0.3" (.fail none) ⟨some "olddb", none⟩ =
      (⟨none, some "olddb"⟩, true) ∧
    (none : Option String) ≠ some "olddb" := by
  constructor
  · rfl
  · decide

/-- C8, amended: on every supported migration pair, a failing re-scan
propagates the error leaving the database as the failed scan left it; only
the backup file still holds the pre-migration content, and the copy-back of
the backup exists only in the SQL-script helper, which no supported pair
invokes. -/
theorem migrate_database_failure_behaviour :
    (∀ (fromv tov d : String) (leftover : Option String),
      supported_pair fromv tov = true →
      migrate_database fromv tov (.fail leftover) ⟨some d, none⟩ =
        (⟨leftover, some d⟩, true)) ∧
    (∀ s : MigState, apply_sql_migration .fail s =
      ({ s with db := s.backup }, true)) := by
  constructor
  · intro fromv tov d leftover hsup
    simp only [migrate_database, create_backup, hsup, if_true]
    rfl
  · intro s
    rfl

/-- C8, witness: the supported v0.3 to v0.4 migration with a failing re-scan
leaves no database file and keeps only the backup. -/
theorem migrate_database_failure_behaviour_witness :
    migrate_database "v0.3" "v0.4" (.fail none) ⟨some "x", none⟩ =
      (⟨none, some "x"⟩, true) :=
  migrate_database_failure_behaviour.1 "v0.3" "v0.4" "x" none (by decide)

/-! ## Theorems: the save path appends its flattened rows -/

mutual

theorem save_entity_recursive_eq (e : PyEntity) (fp now : String)
    (pid : Option Nat) (depth : Nat) (db : DB) :
    save_entity_recursive e fp now pid depth db =
      { db with
        entities := db.entities ++
          (flatEntity fp now pid depth db.nextId e).pairs.map Prod.fst
        metadata := db.metadata ++
          (flatEntity fp now pid depth db.nextId e).pairs.map Prod.snd
        relations := db.relations ++ (flatEntity fp now pid depth db.nextId e).rels
        nextId := (flatEntity fp now pid depth db.nextId e).next } := by
  obtain ⟨fs, es, ms, rs, nf, ni⟩ := db
  cases e with
  | mk name ty vis doc cmm mkind ls le deps methods =>
    by_cases h : depth > 100
    · simp [save_entity_recursive, flatEntity, h]
    · rw [save_entity_recursive, flatEntity]
      simp only [h, if_false]
      rw [save_entities_list_eq]
      simp [List.append_assoc]

theorem save_entities_list_eq (es : List PyEntity) (fp now : String)
    (pid : Option Nat) (depth : Nat) (db : DB) :
    save_entities_list es fp now pid depth db =
      { db with
        entities := db.entities ++
          (flatList fp now pid depth db.nextId es).pairs.map Prod.fst
        metadata := db.metadata ++
          (flatList fp now pid depth db.nextId es).pairs.map Prod.snd
        relations := db.relations ++ (flatList fp now pid depth db.nextId es).rels
        nextId := (flatList fp now pid depth db.nextId es).next } := by
  obtain ⟨fs, ents, ms, rs, nf, ni⟩ := db
  cases es with
  | nil => simp [save_entities_list, flatList]
  | cons e rest =>
    rw [save_entities_list, flatList]
    rw [save_entity_recursive_eq]
    rw [save_entities_list_eq]
    simp [List.append_assoc]

end

/-- The save path touches neither the files table nor the file-id counter. -/
theorem save_entities_list_files (es : List PyEntity) (fp now : String)
    (pid : Option Nat) (depth : Nat) (db : DB) :
    (save_entities_list es fp now pid depth db).files = db.files ∧
      (save_entities_list es fp now pid depth db).nextFileId = db.nextFileId := by
  rw [save_entities_list_eq]
  exact ⟨rfl, rfl⟩

/-! ## Theorems: upsert idempotence -/

lemma deleteEntities_files (db : DB) (ids : List Nat) :
    (deleteEntities db ids).files = db.files := rfl

lemma find?_path_map_update (l : List FileRow) (p : String)
    (g : FileRow → FileRow) (hg : ∀ f, (g f).file_path = f.file_path) :
    (l.map g).find? (fun f => f.file_path == p) =
      (l.find? (fun f => f.file_path == p)).map g := by
  induction l with
  | nil => rfl
  | cons f rest ih =>
    by_cases h : (f.file_path == p) = true
    · simp [List.find?, hg, h]
    · simp [List.find?, hg, h, ih]

/-- Reduction of upsert_file when the path has a stored file row. -/
lemma upsert_file_eq_of_find_some (p fh now : String) (m : CMMEntity)
    (db : DB) (fr0 : FileRow)
    (hfind : db.files.find? (fun f => f.file_path == p) = some fr0) :
    upsert_file p fh now m db =
      if fr0.file_hash == fh then db
      else
        save_entities_list m.entities p now none 0 (deleteEntities
          { db with
            files := db.files.map (fun f =>
              if f.id == fr0.id then
                { f with
                  file_hash := fh
                  schema_version := m.schema_version
                  updated_at := now }
              else f) }
          ((db.metadata.filter (fun md => md.file_path == p)).map
            (·.entity_id))) := by
  unfold upsert_file
  rw [hfind]

/-- Reduction of upsert_file when the path has no stored file row. -/
lemma upsert_file_eq_of_find_none (p fh now : String) (m : CMMEntity)
    (db : DB)
    (hfind : db.files.find? (fun f => f.file_path == p) = none) :
    upsert_file p fh now m db = saveFileFresh p fh now m db := by
  unfold upsert_file
  rw [hfind]

/-- After any upsert_file call, the file row found at the path carries the
hash that was just written. -/
lemma upsert_file_find (p fh now : String) (m : CMMEntity) (db : DB) :
    ∃ fr : FileRow,
      (upsert_file p fh now m db).files.find? (fun f => f.file_path == p) =
        some fr ∧ fr.file_hash = fh := by
  cases hfind : db.files.find? (fun f => f.file_path == p) with
  | some fr0 =>
    rw [upsert_file_eq_of_find_some p fh now m db fr0 hfind]
    by_cases hh : (fr0.file_hash == fh) = true
    · rw [if_pos hh]
      exact ⟨fr0, hfind, by simpa using hh⟩
    · rw [if_neg hh]
      rw [(save_entities_list_files m.entities p now none 0 _).1,
        deleteEntities_files]
      show ∃ fr, (db.files.map _).find? _ = some fr ∧ fr.file_hash = fh
      rw [find?_path_map_update db.files p _ (by
        intro f
        by_cases hid : (f.id == fr0.id) = true <;> simp [hid])]
      rw [hfind]
      refine ⟨_, rfl, ?_⟩
      simp
  | none =>
    rw [upsert_file_eq_of_find_none p fh now m db hfind]
    unfold saveFileFresh
    rw [(save_entities_list_files m.entities p now none 0 _).1]
    show ∃ fr, ((db.files ++ _).find? _) = some fr ∧ fr.file_hash = fh
    rw [List.find?_append, hfind]
    refine ⟨⟨db.nextFileId, p, fh, m.schema_version, now, now⟩, ?_, rfl⟩
    simp [List.find?, Option.or]

/-- An upsert_file call on a path whose stored row already carries the same
hash leaves the database unchanged. -/
lemma upsert_file_noop (p fh now : String) (m : CMMEntity) (db : DB)
    (fr : FileRow)
    (hfind : db.files.find? (fun f => f.file_path == p) = some fr)
    (hh : fr.file_hash = fh) :
    upsert_file p fh now m db = db := by
  rw [upsert_file_eq_of_find_some p fh now m db fr hfind]
  simp [hh]

/-- C1: a second upsert_file of the same path with the same content hash is
a no-op, whatever timestamp it observes: the database (file rows, entities,
metadata, relations, counters) is left exactly as the first call left it. -/
theorem upsert_file_idempotent (db : DB) (m : CMMEntity)
    (p fh now1 now2 : String) :
    upsert_file p fh now2 m (upsert_file p fh now1 m db) =
      upsert_file p fh now1 m db := by
  obtain ⟨fr, hfind, hhash⟩ := upsert_file_find p fh now1 m db
  exact upsert_file_noop p fh now2 m _ fr hfind hhash

/-! ## Theorems: shape of the flattened rows -/

lemma processDeps_nil (i : Nat) (seen : List (String × String)) :
    processDeps i [] seen = [] := rfl

lemma processDeps_cons_none (i : Nat) (d : RawDep) (rest : List RawDep)
    (seen : List (String × String)) (h : depNameRel d = none) :
    processDeps i (d :: rest) seen = processDeps i rest seen := by
  simp only [processDeps, h]

lemma processDeps_cons_seen (i : Nat) (d : RawDep) (rest : List RawDep)
    (seen : List (String × String)) (nm rt : String)
    (h : depNameRel d = some (nm, rt))
    (hc : seen.contains (nm, rt) = true) :
    processDeps i (d :: rest) seen = processDeps i rest seen := by
  simp only [processDeps, h]
  rw [if_pos hc]

lemma processDeps_cons_new (i : Nat) (d : RawDep) (rest : List RawDep)
    (seen : List (String × String)) (nm rt : String)
    (h : depNameRel d = some (nm, rt))
    (hc : ¬ seen.contains (nm, rt) = true) :
    processDeps i (d :: rest) seen =
      ⟨i, none, nm, rt, false⟩ :: processDeps i rest ((nm, rt) :: seen) := by
  simp only [processDeps, h]
  rw [if_neg hc]

lemma processDeps_mem :
    ∀ (ds : List RawDep) (seen : List (String × String)) (i : Nat)
      (r : RelationRow), r ∈ processDeps i ds seen →
      r.from_id = i ∧ r.to_id = none ∧ r.is_verified = false ∧
        (r.to_name, r.rel_type) ∉ seen := by
  intro ds
  induction ds with
  | nil => intro seen i r h; cases h
  | cons d rest ih =>
    intro seen i r h
    cases hd : depNameRel d with
    | none =>
      rw [processDeps_cons_none i d rest seen hd] at h
      exact ih seen i r h
    | some pr =>
      obtain ⟨nm, rt⟩ := pr
      by_cases hc : seen.contains (nm, rt) = true
      · rw [processDeps_cons_seen i d rest seen nm rt hd hc] at h
        exact ih seen i r h
      · rw [processDeps_cons_new i d rest seen nm rt hd hc] at h
        rcases List.mem_cons.mp h with rfl | h2
        · exact ⟨rfl, rfl, rfl, by simpa using hc⟩
        · have h3 := ih ((nm, rt) :: seen) i r h2
          exact ⟨h3.1, h3.2.1, h3.2.2.1,
            fun hmem => h3.2.2.2 (List.mem_cons_of_mem _ hmem)⟩

lemma processDeps_pairwise :
    ∀ (ds : List RawDep) (seen : List (String × String)) (i : Nat),
      (processDeps i ds seen).Pairwise
        (fun r1 r2 => (r1.to_name, r1.rel_type) ≠ (r2.to_name, r2.rel_type)) := by
  intro ds
  induction ds with
  | nil => intro seen i; rw [processDeps_nil]; exact List.Pairwise.nil
  | cons d rest ih =>
    intro seen i
    cases hd : depNameRel d with
    | none =>
      rw [processDeps_cons_none i d rest seen hd]
      exact ih seen i
    | some pr =>
      obtain ⟨nm, rt⟩ := pr
      by_cases hc : seen.contains (nm, rt) = true
      · rw [processDeps_cons_seen i d rest seen nm rt hd hc]
        exact ih seen i
      · rw [processDeps_cons_new i d rest seen nm rt hd hc]
        refine List.pairwise_cons.mpr ⟨?_, ih ((nm, rt) :: seen) i⟩
        intro r hr heq
        have h3 := processDeps_mem rest ((nm, rt) :: seen) i r hr
        exact h3.2.2.2 (by
          rw [← heq]
          exact List.mem_cons_self _ _)

mutual

theorem flatEntity_next_ge (fp now : String) (pid : Option Nat)
    (depth c : Nat) (e : PyEntity) :
    c ≤ (flatEntity fp now pid depth c e).next := by
  cases e with
  | mk name ty vis doc cmm mkind ls le deps methods =>
    by_cases h : depth > 100
    · simp [flatEntity, h]
    · simp only [flatEntity, h, if_false]
      exact le_trans (Nat.le_succ c)
        (flatList_next_ge fp now (some c) (depth + 1) (c + 1) methods)

theorem flatList_next_ge (fp now : String) (pid : Option Nat)
    (depth c : Nat) (es : List PyEntity) :
    c ≤ (flatList fp now pid depth c es).next := by
  cases es with
  | nil => simp [flatList]
  | cons e rest =>
    simp only [flatList]
    exact le_trans (flatEntity_next_ge fp now pid depth c e)
      (flatList_next_ge fp now pid depth
        (flatEntity fp now pid depth c e).next rest)

end

mutual

theorem flatEntity_range (fp now : String) (pid : Option Nat)
    (depth c : Nat) (e : PyEntity) :
    (∀ pr ∈ (flatEntity fp now pid depth c e).pairs,
      (c ≤ pr.1.id ∧ pr.1.id < (flatEntity fp now pid depth c e).next) ∧
      pr.2.entity_id = pr.1.id ∧ pr.2.file_path = fp ∧
      (pr.1.parent_id = pid ∨
        ∃ j, pr.1.parent_id = some j ∧ c ≤ j ∧
          j < (flatEntity fp now pid depth c e).next)) ∧
    (∀ r ∈ (flatEntity fp now pid depth c e).rels,
      c ≤ r.from_id ∧ r.from_id < (flatEntity fp now pid depth c e).next) := by
  cases e with
  | mk name ty vis doc cmm mkind ls le deps methods =>
    by_cases h : depth > 100
    · simp [flatEntity, h]
    · simp only [flatEntity, h, if_false]
      have hsub := flatList_range fp now (some c) (depth + 1) (c + 1) methods
      have hnext := flatList_next_ge fp now (some c) (depth + 1) (c + 1) methods
      constructor
      · intro pr hpr
        rcases List.mem_cons.mp hpr with rfl | hpr2
        · refine ⟨⟨le_refl _, ?_⟩, rfl, rfl, Or.inl rfl⟩
          show c < (flatList fp now (some c) (depth + 1) (c + 1) methods).next
          omega
        · have h2 := hsub.1 pr hpr2
          refine ⟨⟨by omega, h2.1.2⟩, h2.2.1, h2.2.2.1, ?_⟩
          rcases h2.2.2.2 with hpid | ⟨j, hj, hj1, hj2⟩
          · exact Or.inr ⟨c, hpid, le_refl c, by omega⟩
          · exact Or.inr ⟨j, hj, by omega, hj2⟩
      · intro r hr
        rcases List.mem_append.mp hr with hr1 | hr2
        · have h2 := processDeps_mem deps [] c r hr1
          rw [h2.1]
          exact ⟨le_refl c, by omega⟩
        · have h2 := hsub.2 r hr2
          exact ⟨by omega, h2.2⟩

theorem flatList_range (fp now : String) (pid : Option Nat)
    (depth c : Nat) (es : List PyEntity) :
    (∀ pr ∈ (flatList fp now pid depth c es).pairs,
      (c ≤ pr.1.id ∧ pr.1.id < (flatList fp now pid depth c es).next) ∧
      pr.2.entity_id = pr.1.id ∧ pr.2.file_path = fp ∧
      (pr.1.parent_id = pid ∨
        ∃ j, pr.1.parent_id = some j ∧ c ≤ j ∧
          j < (flatList fp now pid depth c es).next)) ∧
    (∀ r ∈ (flatList fp now pid depth c es).rels,
      c ≤ r.from_id ∧ r.from_id < (flatList fp now pid depth c es).next) := by
  cases es with
  | nil => simp [flatList]
  | cons e rest =>
    simp only [flatList]
    have h1 := flatEntity_range fp now pid depth c e
    have h2 := flatList_range fp now pid depth
      (flatEntity fp now pid depth c e).next rest
    have hn1 := flatEntity_next_ge fp now pid depth c e
    have hn2 := flatList_next_ge fp now pid depth
      (flatEntity fp now pid depth c e).next rest
    constructor
    · intro pr hpr
      rcases List.mem_append.mp hpr with hpr1 | hpr2
      · have h3 := h1.1 pr hpr1
        refine ⟨⟨h3.1.1, by omega⟩, h3.2.1, h3.2.2.1, ?_⟩
        rcases h3.2.2.2 with hpid | ⟨j, hj, hj1, hj2⟩
        · exact Or.inl hpid
        · exact Or.inr ⟨j, hj, hj1, by omega⟩
      · have h3 := h2.1 pr hpr2
        refine ⟨⟨by omega, h3.1.2⟩, h3.2.1, h3.2.2.1, ?_⟩
        rcases h3.2.2.2 with hpid | ⟨j, hj, hj1, hj2⟩
        · exact Or.inl hpid
        · exact Or.inr ⟨j, hj, by omega, hj2⟩
    · intro r hr
      rcases List.mem_append.mp hr with hr1 | hr2
      · have h3 := h1.2 r hr1
        exact ⟨h3.1, by omega⟩
      · have h3 := h2.2 r hr2
        exact ⟨by omega, h3.2⟩

end

mutual

theorem flatEntity_rels_pairwise (fp now : String) (pid : Option Nat)
    (depth c : Nat) (e : PyEntity) :
    (flatEntity fp now pid depth c e).rels.Pairwise
      (fun r1 r2 => relKey r1 ≠ relKey r2) := by
  cases e with
  | mk name ty vis doc cmm mkind ls le deps methods =>
    by_cases h : depth > 100
    · simp [flatEntity, h]
    · simp only [flatEntity, h, if_false]
      rw [List.pairwise_append]
      refine ⟨?_, flatList_rels_pairwise fp now (some c) (depth + 1) (c + 1)
        methods, ?_⟩
      · refine (processDeps_pairwise deps [] c).imp ?_
        intro r1 r2 hne heq
        apply hne
        unfold relKey at heq
        have h1 : r1.to_name = r2.to_name := congrArg (fun t => t.2.1) heq
        have h2 : r1.rel_type = r2.rel_type := congrArg (fun t => t.2.2) heq
        rw [h1, h2]
      · intro r1 hr1 r2 hr2
        have ha := processDeps_mem deps [] c r1 hr1
        have hb := (flatList_range fp now (some c) (depth + 1) (c + 1)
          methods).2 r2 hr2
        intro heq
        have : r1.from_id = r2.from_id := congrArg (fun t => t.1) heq
        omega

theorem flatList_rels_pairwise (fp now : String) (pid : Option Nat)
    (depth c : Nat) (es : List PyEntity) :
    (flatList fp now pid depth c es).rels.Pairwise
      (fun r1 r2 => relKey r1 ≠ relKey r2) := by
  cases es with
  | nil => simp [flatList]
  | cons e rest =>
    simp only [flatList]
    rw [List.pairwise_append]
    refine ⟨flatEntity_rels_pairwise fp now pid depth c e,
      flatList_rels_pairwise fp now pid depth
        (flatEntity fp now pid depth c e).next rest, ?_⟩
    intro r1 hr1 r2 hr2
    have ha := (flatEntity_range fp now pid depth c e).2 r1 hr1
    have hb := (flatList_range fp now pid depth
      (flatEntity fp now pid depth c e).next rest).2 r2 hr2
    intro heq
    have : r1.from_id = r2.from_id := congrArg (fun t => t.1) heq
    omega

end

lemma canonDepsAux_nil (seen : List (String × String)) :
    canonDepsAux [] seen = [] := rfl

lemma canonDepsAux_cons_none (d : RawDep) (rest : List RawDep)
    (seen : List (String × String)) (h : depNameRel d = none) :
    canonDepsAux (d :: rest) seen = canonDepsAux rest seen := by
  simp only [canonDepsAux, h]

lemma canonDepsAux_cons_seen (d : RawDep) (rest : List RawDep)
    (seen : List (String × String)) (nm rt : String)
    (h : depNameRel d = some (nm, rt))
    (hc : seen.contains (nm, rt) = true) :
    canonDepsAux (d :: rest) seen = canonDepsAux rest seen := by
  simp only [canonDepsAux, h]
  rw [if_pos hc]

lemma canonDepsAux_cons_new (d : RawDep) (rest : List RawDep)
    (seen : List (String × String)) (nm rt : String)
    (h : depNameRel d = some (nm, rt))
    (hc : ¬ seen.contains (nm, rt) = true) :
    canonDepsAux (d :: rest) seen =
      .dict (some nm) (some rt) :: canonDepsAux rest ((nm, rt) :: seen) := by
  simp only [canonDepsAux, h]
  rw [if_neg hc]

/-- The relations written for one entity, read back as dictionaries, are the
canonical dependency list. -/
lemma processDeps_map_canon :
    ∀ (ds : List RawDep) (seen : List (String × String)) (i : Nat),
      (processDeps i ds seen).map
        (fun r => RawDep.dict (some r.to_name) (some r.rel_type)) =
      canonDepsAux ds seen := by
  intro ds
  induction ds with
  | nil => intro seen i; rfl
  | cons d rest ih =>
    intro seen i
    cases hd : depNameRel d with
    | none =>
      rw [processDeps_cons_none i d rest seen hd,
        canonDepsAux_cons_none d rest seen hd]
      exact ih seen i
    | some pr =>
      obtain ⟨nm, rt⟩ := pr
      by_cases hc : seen.contains (nm, rt) = true
      · rw [processDeps_cons_seen i d rest seen nm rt hd hc,
          canonDepsAux_cons_seen d rest seen nm rt hd hc]
        exact ih seen i
      · rw [processDeps_cons_new i d rest seen nm rt hd hc,
          canonDepsAux_cons_new d rest seen nm rt hd hc]
        rw [List.map_cons]
        rw [ih ((nm, rt) :: seen) i]

mutual

theorem flatEntity_ids_nodup (fp now : String) (pid : Option Nat)
    (depth c : Nat) (e : PyEntity) :
    ((flatEntity fp now pid depth c e).pairs.map (fun pr => pr.1.id)).Nodup := by
  cases e with
  | mk name ty vis doc cmm mkind ls le deps methods =>
    by_cases h : depth > 100
    · simp [flatEntity, h]
    · simp only [flatEntity, h, if_false, List.map_cons]
      rw [List.nodup_cons]
      refine ⟨?_, flatList_ids_nodup fp now (some c) (depth + 1) (c + 1) methods⟩
      intro hmem
      rcases List.mem_map.mp hmem with ⟨pr, hpr, hid⟩
      have := (flatList_range fp now (some c) (depth + 1) (c + 1)
        methods).1 pr hpr
      omega

theorem flatList_ids_nodup (fp now : String) (pid : Option Nat)
    (depth c : Nat) (es : List PyEntity) :
    ((flatList fp now pid depth c es).pairs.map (fun pr => pr.1.id)).Nodup := by
  cases es with
  | nil => simp [flatList]
  | cons e rest =>
    simp only [flatList, List.map_append]
    rw [List.nodup_append]
    refine ⟨flatEntity_ids_nodup fp now pid depth c e,
      flatList_ids_nodup fp now pid depth
        (flatEntity fp now pid depth c e).next rest, ?_⟩
    intro j hj1 hj2
    rcases List.mem_map.mp hj1 with ⟨pr1, hpr1, hid1⟩
    rcases List.mem_map.mp hj2 with ⟨pr2, hpr2, hid2⟩
    have h1 := (flatEntity_range fp now pid depth c e).1 pr1 hpr1
    have h2 := (flatList_range fp now pid depth
      (flatEntity fp now pid depth c e).next rest).1 pr2 hpr2
    omega

end

mutual

theorem flatEntity_surj (fp now : String) (pid : Option Nat)
    (depth c : Nat) (e : PyEntity) :
    ∀ j, c ≤ j → j < (flatEntity fp now pid depth c e).next →
      ∃ pr ∈ (flatEntity fp now pid depth c e).pairs, pr.1.id = j := by
  cases e with
  | mk name ty vis doc cmm mkind ls le deps methods =>
    by_cases h : depth > 100
    · simp only [flatEntity, h, if_true]
      intro j hj1 hj2
      omega
    · simp only [flatEntity, h, if_false]
      intro j hj1 hj2
      by_cases hjc : j = c
      · exact ⟨_, List.mem_cons_self _ _, hjc.symm⟩
      · obtain ⟨pr, hpr, hid⟩ := flatList_surj fp now (some c) (depth + 1)
          (c + 1) methods j (by omega) hj2
        exact ⟨pr, List.mem_cons_of_mem _ hpr, hid⟩

theorem flatList_surj (fp now : String) (pid : Option Nat)
    (depth c : Nat) (es : List PyEntity) :
    ∀ j, c ≤ j → j < (flatList fp now pid depth c es).next →
      ∃ pr ∈ (flatList fp now pid depth c es).pairs, pr.1.id = j := by
  cases es with
  | nil =>
    simp only [flatList]
    intro j hj1 hj2
    omega
  | cons e rest =>
    simp only [flatList]
    intro j hj1 hj2
    by_cases hsplit : j < (flatEntity fp now pid depth c e).next
    · obtain ⟨pr, hpr, hid⟩ := flatEntity_surj fp now pid depth c e j hj1 hsplit
      exact ⟨pr, List.mem_append.mpr (Or.inl hpr), hid⟩
    · obtain ⟨pr, hpr, hid⟩ := flatList_surj fp now pid depth
        (flatEntity fp now pid depth c e).next rest j (by omega) hj2
      exact ⟨pr, List.mem_append.mpr (Or.inr hpr), hid⟩

end

/-- The entity/metadata join of get_file recovers exactly the saved pairs
when metadata ids match entity ids positionally and entity ids are
duplicate-free. -/
lemma join_of_paired (p : String) :
    ∀ (prs : List (EntityRow × MetadataRow)),
      (∀ pr ∈ prs, pr.2.entity_id = pr.1.id ∧ pr.2.file_path = p) →
      ((prs.map Prod.fst).map (fun e => e.id)).Nodup →
      (prs.map Prod.fst).filterMap (fun e =>
        ((prs.map Prod.snd).find? (fun md =>
          md.entity_id == e.id && md.file_path == p)).map
          (fun md => (e, md))) = prs := by
  intro prs
  induction prs with
  | nil => intro _ _; rfl
  | cons pr rest ih =>
    intro hmeta hnodup
    obtain ⟨h1, h2⟩ := hmeta pr (List.mem_cons_self pr rest)
    simp only [List.map_cons] at hnodup ⊢
    have hfind0 : (pr.2 :: rest.map Prod.snd).find? (fun md =>
        md.entity_id == pr.1.id && md.file_path == p) = some pr.2 := by
      rw [List.find?_cons_of_pos]
      simp [h1, h2]
    rw [List.filterMap_cons]
    rw [hfind0]
    show ((pr.1, pr.2) :: (rest.map Prod.fst).filterMap (fun e =>
        ((pr.2 :: rest.map Prod.snd).find? (fun md =>
          md.entity_id == e.id && md.file_path == p)).map
          (fun md => (e, md)))) = pr :: rest
    have hrest : (rest.map Prod.fst).filterMap (fun e =>
        ((pr.2 :: rest.map Prod.snd).find? (fun md =>
          md.entity_id == e.id && md.file_path == p)).map
          (fun md => (e, md))) =
        (rest.map Prod.fst).filterMap (fun e =>
        ((rest.map Prod.snd).find? (fun md =>
          md.entity_id == e.id && md.file_path == p)).map
          (fun md => (e, md))) := by
      refine List.filterMap_congr ?_
      intro e he
      have hne : pr.1.id ≠ e.id := by
        rw [List.nodup_cons] at hnodup
        intro hx
        apply hnodup.1
        rw [hx]
        exact List.mem_map_of_mem (fun e => e.id) he
      rw [List.find?_cons_of_neg]
      simp [h1, h2]
      exact hne
    rw [hrest]
    rw [ih (fun q hq => hmeta q (List.mem_cons_of_mem pr hq))
      (List.nodup_cons.mp hnodup).2]

/-! ## Theorems: reconstruction of the saved tree -/

lemma flatEntity_low (fp now : String) (pid : Option Nat) (depth c : Nat)
    (name ty vis doc cmm : String) (mkind : Option String)
    (ls le : Option Nat) (deps : List RawDep) (methods : List PyEntity)
    (h : ¬ depth > 100) :
    flatEntity fp now pid depth c
        (.mk name ty vis doc cmm mkind ls le deps methods) =
      ⟨(⟨c, name, ty, vis, pid, ls.getD 0, le.getD 0⟩,
        ⟨c, fp, doc, "", cmm, mkind, now, now⟩) ::
          (flatList fp now (some c) (depth + 1) (c + 1) methods).pairs,
        processDeps c deps [] ++
          (flatList fp now (some c) (depth + 1) (c + 1) methods).rels,
        (flatList fp now (some c) (depth + 1) (c + 1) methods).next⟩ := by
  simp only [flatEntity, h, if_false]

lemma flatEntity_high (fp now : String) (pid : Option Nat) (depth c : Nat)
    (name ty vis doc cmm : String) (mkind : Option String)
    (ls le : Option Nat) (deps : List RawDep) (methods : List PyEntity)
    (h : depth > 100) :
    flatEntity fp now pid depth c
        (.mk name ty vis doc cmm mkind ls le deps methods) = ⟨[], [], c⟩ := by
  simp only [flatEntity, h, if_true]

lemma flatList_cons_eq (fp now : String) (pid : Option Nat) (depth c : Nat)
    (e : PyEntity) (rest : List PyEntity) :
    flatList fp now pid depth c (e :: rest) =
      ⟨(flatEntity fp now pid depth c e).pairs ++
        (flatList fp now pid depth
          (flatEntity fp now pid depth c e).next rest).pairs,
       (flatEntity fp now pid depth c e).rels ++
        (flatList fp now pid depth
          (flatEntity fp now pid depth c e).next rest).rels,
       (flatList fp now pid depth
          (flatEntity fp now pid depth c e).next rest).next⟩ := rfl

lemma canonEntity_low (depth : Nat) (name ty vis doc cmm : String)
    (mkind : Option String) (ls le : Option Nat) (deps : List RawDep)
    (methods : List PyEntity) (h : ¬ depth > 100) :
    canonEntity depth (.mk name ty vis doc cmm mkind ls le deps methods) =
      some (.mk name ty vis doc cmm (truthyStr mkind) none none
        (canonDeps deps) (canonList (depth + 1) methods)) := by
  simp only [canonEntity, h, if_false]

lemma canonEntity_high (depth : Nat) (name ty vis doc cmm : String)
    (mkind : Option String) (ls le : Option Nat) (deps : List RawDep)
    (methods : List PyEntity) (h : depth > 100) :
    canonEntity depth (.mk name ty vis doc cmm mkind ls le deps methods) =
      none := by
  simp only [canonEntity, h, if_true]

lemma canonList_cons_some (depth : Nat) (e : PyEntity) (rest : List PyEntity)
    (ce : PyEntity) (h : canonEntity depth e = some ce) :
    canonList depth (e :: rest) = ce :: canonList depth rest := by
  simp only [canonList, h]

lemma canonList_cons_none (depth : Nat) (e : PyEntity) (rest : List PyEntity)
    (h : canonEntity depth e = none) :
    canonList depth (e :: rest) = canonList depth rest := by
  simp only [canonList, h]

lemma filter_parent_eq_nil {pairs : List (EntityRow × MetadataRow)}
    {v : Option Nat} (h : ∀ pr ∈ pairs, pr.1.parent_id ≠ v) :
    pairs.filter (fun pr => pr.1.parent_id == v) = [] :=
  List.filter_eq_nil_iff.mpr (fun pr hpr => by simpa using h pr hpr)

lemma filter_from_id_eq_nil {rels : List RelationRow} {i : Nat}
    (h : ∀ r ∈ rels, r.from_id ≠ i) :
    rels.filter (fun r => r.from_id == i) = [] :=
  List.filter_eq_nil_iff.mpr (fun r hr => by simpa using h r hr)

lemma filter_from_id_eq_self {rels : List RelationRow} {i : Nat}
    (h : ∀ r ∈ rels, r.from_id = i) :
    rels.filter (fun r => r.from_id == i) = rels :=
  List.filter_eq_self.mpr (fun r hr => by simpa using h r hr)

mutual

theorem build_entity_correct (fp now : String)
    (P : List (EntityRow × MetadataRow)) (R : List RelationRow)
    (e : PyEntity) (pid : Option Nat) (depth c fuel : Nat)
    (hdepth : ¬ depth > 100)
    (hpid : ∀ q, pid = some q → q < c)
    (HP : ∀ i, c ≤ i → i < (flatEntity fp now pid depth c e).next →
      P.filter (fun pr => pr.1.parent_id == some i) =
        (flatEntity fp now pid depth c e).pairs.filter
          (fun pr => pr.1.parent_id == some i))
    (HR : ∀ i, c ≤ i → i < (flatEntity fp now pid depth c e).next →
      R.filter (fun r => r.from_id == i) =
        (flatEntity fp now pid depth c e).rels.filter
          (fun r => r.from_id == i))
    (hfuel : (flatEntity fp now pid depth c e).pairs.length ≤ fuel) :
    ∀ pr tail, (flatEntity fp now pid depth c e).pairs = pr :: tail →
      canonEntity depth e = some (buildEntityTree R P fuel pr) := by
  cases e with
  | mk name ty vis doc cmm mkind ls le deps methods =>
    rw [flatEntity_low fp now pid depth c name ty vis doc cmm mkind ls le
      deps methods hdepth] at HP HR hfuel ⊢
    dsimp only at HP HR hfuel
    intro pr tail hpr
    dsimp only at hpr
    injection hpr with h1 h2
    subst h1
    have hnext := flatList_next_ge fp now (some c) (depth + 1) (c + 1) methods
    have hsubrange := flatList_range fp now (some c) (depth + 1) (c + 1) methods
    cases fuel with
    | zero => simp at hfuel
    | succ f =>
      have ha : R.filter (fun r => r.from_id == c) = processDeps c deps [] := by
        rw [HR c (le_refl c) (by omega)]
        rw [List.filter_append]
        rw [filter_from_id_eq_self
          (fun r hr => (processDeps_mem deps [] c r hr).1)]
        rw [filter_from_id_eq_nil
          (fun r hr => by have := hsubrange.2 r hr; omega)]
        rw [List.append_nil]
      have hpid_ne : ∀ i, c ≤ i → (pid == some i) = false := by
        intro i hi
        rw [beq_eq_false_iff_ne]
        intro heq
        have := hpid i heq
        omega
      have hb0 : P.filter (fun x => x.1.parent_id == some c) =
          (flatList fp now (some c) (depth + 1) (c + 1) methods).pairs.filter
            (fun x => x.1.parent_id == some c) := by
        rw [HP c (le_refl c) (by omega)]
        rw [List.filter_cons_of_neg]
        show ¬ (pid == some c) = true
        rw [hpid_ne c (le_refl c)]
        simp
      have hb : ((flatList fp now (some c) (depth + 1) (c + 1)
          methods).pairs.filter (fun x => x.1.parent_id == some c)).map
            (buildEntityTree R P f) = canonList (depth + 1) methods := by
        apply build_list_correct fp now P R methods (some c) (depth + 1)
          (c + 1) f
        · intro q hq
          injection hq with hq'
          omega
        · intro i hi1 hi2
          rw [HP i (by omega) hi2]
          rw [List.filter_cons_of_neg]
          show ¬ (pid == some i) = true
          rw [hpid_ne i (by omega)]
          simp
        · intro i hi1 hi2
          rw [HR i (by omega) hi2]
          rw [List.filter_append]
          rw [filter_from_id_eq_nil (fun r hr => by
            have := (processDeps_mem deps [] c r hr).1
            omega)]
          rw [List.nil_append]
        · simp only [List.length_cons] at hfuel
          omega
      rw [canonEntity_low depth name ty vis doc cmm mkind ls le deps
        methods hdepth]
      show some (PyEntity.mk name ty vis doc cmm (truthyStr mkind) none none
          (canonDeps deps) (canonList (depth + 1) methods)) =
        some (PyEntity.mk name ty vis doc cmm (truthyStr mkind) none none
          (rowToDepList R c)
          ((P.filter (fun x => x.1.parent_id == some c)).map
            (buildEntityTree R P f)))
      rw [hb0, hb]
      unfold rowToDepList
      rw [ha]
      rw [processDeps_map_canon deps [] c]
      rfl

theorem build_list_correct (fp now : String)
    (P : List (EntityRow × MetadataRow)) (R : List RelationRow)
    (es : List PyEntity) (pid : Option Nat) (depth c fuel : Nat)
    (hpid : ∀ q, pid = some q → q < c)
    (HP : ∀ i, c ≤ i → i < (flatList fp now pid depth c es).next →
      P.filter (fun pr => pr.1.parent_id == some i) =
        (flatList fp now pid depth c es).pairs.filter
          (fun pr => pr.1.parent_id == some i))
    (HR : ∀ i, c ≤ i → i < (flatList fp now pid depth c es).next →
      R.filter (fun r => r.from_id == i) =
        (flatList fp now pid depth c es).rels.filter
          (fun r => r.from_id == i))
    (hfuel : (flatList fp now pid depth c es).pairs.length ≤ fuel) :
    ((flatList fp now pid depth c es).pairs.filter
        (fun pr => pr.1.parent_id == pid)).map (buildEntityTree R P fuel) =
      canonList depth es := by
  cases es with
  | nil => rfl
  | cons e rest =>
    by_cases hd : depth > 100
    · cases e with
      | mk name ty vis doc cmm mkind ls le deps methods =>
        rw [flatList_cons_eq, flatEntity_high fp now pid depth c name ty vis
          doc cmm mkind ls le deps methods hd] at HP HR hfuel ⊢
        dsimp only at HP HR hfuel ⊢
        simp only [List.nil_append] at HP HR hfuel ⊢
        rw [canonList_cons_none depth _ rest
          (canonEntity_high depth name ty vis doc cmm mkind ls le deps
            methods hd)]
        exact build_list_correct fp now P R rest pid depth c fuel hpid HP HR
          hfuel
    · cases e with
      | mk name ty vis doc cmm mkind ls le deps methods =>
        rw [flatList_cons_eq, flatEntity_low fp now pid depth c name ty vis
          doc cmm mkind ls le deps methods hd] at HP HR hfuel ⊢
        dsimp only at HP HR hfuel ⊢
        have hnotpid : ∀ (j : Nat), c ≤ j → some j ≠ pid := by
          intro j hj heq
          have := hpid j heq.symm
          omega
        have hsub1range := flatList_range fp now (some c) (depth + 1) (c + 1)
          methods
        have hsub1next := flatList_next_ge fp now (some c) (depth + 1) (c + 1)
          methods
        have hO2range := flatList_range fp now pid depth
          (flatList fp now (some c) (depth + 1) (c + 1) methods).next rest
        have hO2next := flatList_next_ge fp now pid depth
          (flatList fp now (some c) (depth + 1) (c + 1) methods).next rest
        have hsub1_ne : ∀ x ∈ (flatList fp now (some c) (depth + 1) (c + 1)
            methods).pairs, x.1.parent_id ≠ pid := by
          intro x hx
          rcases (hsub1range.1 x hx).2.2.2 with h1 | ⟨j, hj, hj1, hj2⟩
          · rw [h1]
            exact hnotpid c (le_refl c)
          · rw [hj]
            exact hnotpid j (by omega)
        rw [List.filter_append, List.filter_cons_of_pos (by simp),
          filter_parent_eq_nil hsub1_ne]
        rw [List.singleton_append, List.map_cons]
        have hce := build_entity_correct fp now P R
          (.mk name ty vis doc cmm mkind ls le deps methods) pid depth c fuel
          hd hpid
          (by
            intro i hi1 hi2
            rw [flatEntity_low fp now pid depth c name ty vis doc cmm mkind
              ls le deps methods hd] at hi2 ⊢
            dsimp only at hi2 ⊢
            have hnil : (flatList fp now pid depth
                (flatList fp now (some c) (depth + 1) (c + 1) methods).next
                rest).pairs.filter
                  (fun pr => pr.1.parent_id == some i) = [] := by
              refine filter_parent_eq_nil (fun x hx => ?_)
              rcases (hO2range.1 x hx).2.2.2 with h1 | ⟨j, hj, hj1, hj2⟩
              · rw [h1]
                intro heq
                have := hpid i heq
                omega
              · rw [hj]
                intro heq
                injection heq with heq2
                omega
            rw [HP i hi1 (by omega), List.filter_append, hnil,
              List.append_nil]
          )
          (by
            intro i hi1 hi2
            rw [flatEntity_low fp now pid depth c name ty vis doc cmm mkind
              ls le deps methods hd] at hi2 ⊢
            dsimp only at hi2 ⊢
            have hnil : (flatList fp now pid depth
                (flatList fp now (some c) (depth + 1) (c + 1) methods).next
                rest).rels.filter (fun r => r.from_id == i) = [] := by
              refine filter_from_id_eq_nil (fun r hr => ?_)
              have := hO2range.2 r hr
              omega
            rw [HR i hi1 (by omega), List.filter_append, hnil,
              List.append_nil]
          )
          (by
            rw [flatEntity_low fp now pid depth c name ty vis doc cmm mkind
              ls le deps methods hd]
            simp only [List.length_append, List.length_cons] at hfuel ⊢
            omega)
          _ _
          (by
            rw [flatEntity_low fp now pid depth c name ty vis doc cmm mkind
              ls le deps methods hd])
        rw [canonList_cons_some depth _ rest _ hce]
        congr 1
        exact build_list_correct fp now P R rest pid depth
          (flatList fp now (some c) (depth + 1) (c + 1) methods).next fuel
          (by
            intro q hq
            have := hpid q hq
            omega)
          (by
            intro i hi1 hi2
            have hnil : ((⟨c, name, ty, vis, pid, ls.getD 0, le.getD 0⟩,
                (⟨c, fp, doc, "", cmm, mkind, now, now⟩ : MetadataRow)) ::
                (flatList fp now (some c) (depth + 1) (c + 1)
                  methods).pairs).filter
                  (fun pr => pr.1.parent_id == some i) = [] := by
              refine filter_parent_eq_nil (fun x hx => ?_)
              rcases List.mem_cons.mp hx with rfl | hx2
              · show pid ≠ some i
                intro heq
                have := hpid i heq
                omega
              · rcases (hsub1range.1 x hx2).2.2.2 with h1 | ⟨j, hj, hj1, hj2⟩
                · rw [h1]
                  intro heq
                  injection heq with heq2
                  omega
                · rw [hj]
                  intro heq
                  injection heq with heq2
                  omega
            rw [HP i (by omega) (by omega), List.filter_append, hnil,
              List.nil_append]
          )
          (by
            intro i hi1 hi2
            have hnil : (processDeps c deps [] ++
                (flatList fp now (some c) (depth + 1) (c + 1)
                  methods).rels).filter (fun r => r.from_id == i) = [] := by
              refine filter_from_id_eq_nil (fun r hr => ?_)
              rcases List.mem_append.mp hr with hr1 | hr2
              · have := (processDeps_mem deps [] c r hr1).1
                omega
              · have := hsub1range.2 r hr2
                omega
            rw [HR i (by omega) (by omega), List.filter_append, hnil,
              List.nil_append]
          )
          (by
            simp only [List.length_append, List.length_cons] at hfuel
            omega)

end

/-! ## Theorems: save_verified_relation -/

lemma list_map_self {α : Type} (l : List α) (f : α → α)
    (h : ∀ x ∈ l, f x = x) : l.map f = l := by
  induction l with
  | nil => rfl
  | cons x rest ih =>
    simp only [List.map_cons, h x (List.mem_cons_self x rest)]
    rw [ih (fun y hy => h y (List.mem_cons_of_mem x hy))]

lemma svr_eq_of_target_none (a b : Nat) (rt : String) (v : Bool) (db : DB)
    (h : db.entities.find? (fun e => e.id == b) = none) :
    save_verified_relation a b rt v db = db := by
  unfold save_verified_relation
  rw [h]

lemma svr_eq_of_target_some (a b : Nat) (rt : String) (v : Bool) (db : DB)
    (tgt : EntityRow)
    (h : db.entities.find? (fun e => e.id == b) = some tgt) :
    save_verified_relation a b rt v db =
      (if db.relations.any (fun r =>
          r.from_id == a && r.to_name == tgt.name && r.rel_type == rt) then
        { db with
          relations := db.relations.map (fun r =>
            if r.from_id == a && r.to_name == tgt.name && r.rel_type == rt then
              { r with to_id := some b, is_verified := v }
            else r) }
      else
        if db.entities.any (fun e => e.id == a) then
          { db with
            relations := db.relations ++ [⟨a, some b, tgt.name, rt, v⟩] }
        else db) := by
  unfold save_verified_relation
  rw [h]

lemma save_verified_relation_entities (a b : Nat) (rt : String) (v : Bool)
    (db : DB) :
    (save_verified_relation a b rt v db).entities = db.entities := by
  cases h : db.entities.find? (fun e => e.id == b) with
  | none => rw [svr_eq_of_target_none a b rt v db h]
  | some tgt =>
    rw [svr_eq_of_target_some a b rt v db tgt h]
    split
    · rfl
    · split <;> rfl

/-- C4: with an existing target entity b, save_verified_relation records a
relation row with from_id a, to_id b, the requested rel_type and
is_verified true; an identical second call leaves the database unchanged;
and with a non-existing target the call leaves the database unchanged. -/
theorem save_verified_relation_spec (db : DB) (a b : Nat) (rt : String)
    (tgt : EntityRow)
    (hfind : db.entities.find? (fun e => e.id == b) = some tgt)
    (ha : db.entities.any (fun e => e.id == a) = true) :
    (∃ r ∈ (save_verified_relation a b rt true db).relations,
      r.from_id = a ∧ r.to_id = some b ∧ r.rel_type = rt ∧
        r.is_verified = true) ∧
    save_verified_relation a b rt true (save_verified_relation a b rt true db) =
      save_verified_relation a b rt true db ∧
    (∀ b2 : Nat, db.entities.find? (fun e => e.id == b2) = none →
      save_verified_relation a b2 rt true db = db) := by
  refine ⟨?_, ?_, fun b2 h2 => svr_eq_of_target_none a b2 rt true db h2⟩
  · rw [svr_eq_of_target_some a b rt true db tgt hfind]
    by_cases hany : db.relations.any (fun r =>
        r.from_id == a && r.to_name == tgt.name && r.rel_type == rt) = true
    · rw [if_pos hany]
      obtain ⟨r, hr, hpred⟩ := List.any_eq_true.mp hany
      refine ⟨if r.from_id == a && r.to_name == tgt.name && r.rel_type == rt then
          { r with to_id := some b, is_verified := true } else r,
        List.mem_map_of_mem _ hr, ?_⟩
      rw [if_pos hpred]
      simp only [Bool.and_eq_true, beq_iff_eq] at hpred
      exact ⟨hpred.1.1, rfl, hpred.2, rfl⟩
    · rw [if_neg hany, if_pos ha]
      exact ⟨(⟨a, some b, tgt.name, rt, true⟩ : RelationRow),
        List.mem_append.mpr (Or.inr (List.mem_singleton.mpr rfl)),
        rfl, rfl, rfl, rfl⟩
  · have hfind1 :
        (save_verified_relation a b rt true db).entities.find?
          (fun e => e.id == b) = some tgt := by
      rw [save_verified_relation_entities]; exact hfind
    rw [svr_eq_of_target_some a b rt true db tgt hfind]
    by_cases hany : db.relations.any (fun r =>
        r.from_id == a && r.to_name == tgt.name && r.rel_type == rt) = true
    · rw [if_pos hany]
      obtain ⟨r0, hr0, hpred0⟩ := List.any_eq_true.mp hany
      have hany1 : (db.relations.map (fun r =>
          if r.from_id == a && r.to_name == tgt.name && r.rel_type == rt then
            { r with to_id := some b, is_verified := true }
          else r)).any (fun r =>
            r.from_id == a && r.to_name == tgt.name && r.rel_type == rt) =
          true := by
        refine List.any_eq_true.mpr ⟨_, List.mem_map_of_mem _ hr0, ?_⟩
        rw [if_pos hpred0]
        simpa using hpred0
      have hs1 : save_verified_relation a b rt true
          { db with relations := db.relations.map (fun r =>
            if r.from_id == a && r.to_name == tgt.name && r.rel_type == rt then
              { r with to_id := some b, is_verified := true }
            else r) } =
          { db with relations := (db.relations.map (fun r =>
            if r.from_id == a && r.to_name == tgt.name && r.rel_type == rt then
              { r with to_id := some b, is_verified := true }
            else r)).map (fun r =>
            if r.from_id == a && r.to_name == tgt.name && r.rel_type == rt then
              { r with to_id := some b, is_verified := true }
            else r) } := by
        have hf : ({ db with relations := db.relations.map (fun r =>
            if r.from_id == a && r.to_name == tgt.name && r.rel_type == rt then
              { r with to_id := some b, is_verified := true }
            else r) } : DB).entities.find? (fun e => e.id == b) = some tgt :=
          hfind
        rw [svr_eq_of_target_some a b rt true _ tgt hf]
        rw [if_pos hany1]
      rw [hs1]
      rw [List.map_map]
      have hff : ((fun r : RelationRow =>
          if r.from_id == a && r.to_name == tgt.name && r.rel_type == rt then
            { r with to_id := some b, is_verified := true }
          else r) ∘ (fun r : RelationRow =>
          if r.from_id == a && r.to_name == tgt.name && r.rel_type == rt then
            { r with to_id := some b, is_verified := true }
          else r)) = (fun r : RelationRow =>
          if r.from_id == a && r.to_name == tgt.name && r.rel_type == rt then
            { r with to_id := some b, is_verified := true }
          else r) := by
        funext r
        by_cases hp : (r.from_id == a && r.to_name == tgt.name &&
            r.rel_type == rt) = true
        · simp only [Function.comp_apply, if_pos hp]
        · simp only [Function.comp_apply, if_neg hp]
      rw [hff]
    · rw [if_neg hany, if_pos ha]
      have hall := List.any_eq_false.mp (Bool.eq_false_iff.mpr hany)
      have hf : ({ db with relations := db.relations ++
          [⟨a, some b, tgt.name, rt, true⟩] } : DB).entities.find?
          (fun e => e.id == b) = some tgt := hfind
      rw [svr_eq_of_target_some a b rt true _ tgt hf]
      have hany1 : ((db.relations ++
          [(⟨a, some b, tgt.name, rt, true⟩ : RelationRow)]).any (fun r =>
            r.from_id == a && r.to_name == tgt.name && r.rel_type == rt)) =
          true := by
        refine List.any_eq_true.mpr ⟨(⟨a, some b, tgt.name, rt, true⟩ : RelationRow),
          List.mem_append.mpr (Or.inr (List.mem_singleton.mpr rfl)), by simp⟩
      rw [if_pos hany1]
      have hmap : (db.relations ++
          [(⟨a, some b, tgt.name, rt, true⟩ : RelationRow)]).map (fun r =>
            if r.from_id == a && r.to_name == tgt.name &&
                r.rel_type == rt then
              { r with to_id := some b, is_verified := true }
            else r) =
          db.relations ++ [⟨a, some b, tgt.name, rt, true⟩] := by
        rw [List.map_append]
        congr 1
        · refine list_map_self _ _ (fun r hr => ?_)
          rw [if_neg (List.any_eq_false.mp (Bool.eq_false_iff.mpr hany) r hr)]
        · simp
      rw [hmap]

/-! ## Theorems: relation-key uniqueness invariant -/

lemma StoreInv_empty : StoreInv emptyDB := by
  refine ⟨List.Pairwise.nil, ?_, ?_⟩
  · intro e he; cases he
  · intro r hr; cases hr

lemma save_entities_list_inv (es : List PyEntity) (fp now : String) (db : DB)
    (h : StoreInv db) :
    StoreInv (save_entities_list es fp now none 0 db) := by
  rw [save_entities_list_eq]
  obtain ⟨hkeys, hent, hrel⟩ := h
  have hrange := flatList_range fp now none 0 db.nextId es
  have hnext := flatList_next_ge fp now none 0 db.nextId es
  refine ⟨?_, ?_, ?_⟩
  · show (db.relations ++ (flatList fp now none 0 db.nextId es).rels).Pairwise _
    rw [List.pairwise_append]
    refine ⟨hkeys, flatList_rels_pairwise fp now none 0 db.nextId es, ?_⟩
    intro r1 hr1 r2 hr2 heq
    have h1 := hrel r1 hr1
    have h2 := hrange.2 r2 hr2
    have h3 : r1.from_id = r2.from_id := congrArg (fun t => t.1) heq
    omega
  · intro e he
    show e.id < (flatList fp now none 0 db.nextId es).next
    rcases List.mem_append.mp he with he1 | he2
    · have := hent e he1
      omega
    · rcases List.mem_map.mp he2 with ⟨pr, hpr, rfl⟩
      exact (hrange.1 pr hpr).1.2
  · intro r hr
    show r.from_id < (flatList fp now none 0 db.nextId es).next
    rcases List.mem_append.mp hr with hr1 | hr2
    · have := hrel r hr1
      omega
    · exact (hrange.2 r hr2).2

lemma deleteEntities_inv (db : DB) (ids : List Nat) (h : StoreInv db) :
    StoreInv (deleteEntities db ids) := by
  obtain ⟨hkeys, hent, hrel⟩ := h
  refine ⟨?_, ?_, ?_⟩
  · exact hkeys.sublist (List.filter_sublist _)
  · intro e he
    exact hent e (List.mem_of_mem_filter he)
  · intro r hr
    exact hrel r (List.mem_of_mem_filter hr)

lemma upsert_file_inv (p fh now : String) (m : CMMEntity) (db : DB)
    (h : StoreInv db) : StoreInv (upsert_file p fh now m db) := by
  cases hfind : db.files.find? (fun f => f.file_path == p) with
  | some fr =>
    rw [upsert_file_eq_of_find_some p fh now m db fr hfind]
    by_cases hh : (fr.file_hash == fh) = true
    · rw [if_pos hh]; exact h
    · rw [if_neg hh]
      exact save_entities_list_inv _ _ _ _ (deleteEntities_inv _ _ h)
  | none =>
    rw [upsert_file_eq_of_find_none p fh now m db hfind]
    exact save_entities_list_inv _ _ _ _ h

lemma save_file_inv (p fh now : String) (m : CMMEntity) (db : DB)
    (h : StoreInv db) : StoreInv (save_file p fh now m db) := by
  unfold save_file
  by_cases hc : (db.files.any (fun f => f.file_path == p)) = true
  · rw [if_pos hc]
    exact upsert_file_inv p fh now m db h
  · rw [if_neg hc]
    exact save_entities_list_inv _ _ _ _ h

lemma save_verified_relation_inv (a b : Nat) (rt : String) (v : Bool)
    (db : DB) (h : StoreInv db) :
    StoreInv (save_verified_relation a b rt v db) := by
  cases hfind : db.entities.find? (fun e => e.id == b) with
  | none => rw [svr_eq_of_target_none a b rt v db hfind]; exact h
  | some tgt =>
    rw [svr_eq_of_target_some a b rt v db tgt hfind]
    obtain ⟨hkeys, hent, hrel⟩ := h
    have key_eq : ∀ r : RelationRow,
        relKey (if r.from_id == a && r.to_name == tgt.name &&
            r.rel_type == rt then
          { r with to_id := some b, is_verified := v }
        else r) = relKey r := by
      intro r
      by_cases hp : (r.from_id == a && r.to_name == tgt.name &&
          r.rel_type == rt) = true
      · rw [if_pos hp]
        rfl
      · rw [if_neg hp]
    by_cases hany : (db.relations.any (fun r =>
        r.from_id == a && r.to_name == tgt.name && r.rel_type == rt)) = true
    · rw [if_pos hany]
      refine ⟨?_, hent, ?_⟩
      · show (db.relations.map _).Pairwise _
        rw [List.pairwise_map]
        refine hkeys.imp ?_
        intro r1 r2 hne heq
        apply hne
        simpa only [key_eq] using heq
      · intro r hr
        rcases List.mem_map.mp hr with ⟨r0, hr0, rfl⟩
        have hfid : (if r0.from_id == a && r0.to_name == tgt.name &&
            r0.rel_type == rt then
          ({ r0 with to_id := some b, is_verified := v } : RelationRow)
        else r0).from_id = r0.from_id := by
          by_cases hp : (r0.from_id == a && r0.to_name == tgt.name &&
              r0.rel_type == rt) = true
          · rw [if_pos hp]
          · rw [if_neg hp]
        show (if r0.from_id == a && r0.to_name == tgt.name &&
            r0.rel_type == rt then
          ({ r0 with to_id := some b, is_verified := v } : RelationRow)
        else r0).from_id < db.nextId
        rw [hfid]
        exact hrel r0 hr0
    · rw [if_neg hany]
      by_cases hfrom : (db.entities.any (fun e => e.id == a)) = true
      · rw [if_pos hfrom]
        refine ⟨?_, hent, ?_⟩
        · show (db.relations ++
            [(⟨a, some b, tgt.name, rt, v⟩ : RelationRow)]).Pairwise _
          rw [List.pairwise_append]
          refine ⟨hkeys, List.pairwise_singleton _ _, ?_⟩
          intro r1 hr1 r2 hr2
          rcases List.mem_singleton.mp hr2 with rfl
          have hpred := List.any_eq_false.mp (Bool.eq_false_iff.mpr hany) r1 hr1
          intro heq
          apply hpred
          have h1 : r1.from_id = a := congrArg (fun t => t.1) heq
          have h2 : r1.to_name = tgt.name := congrArg (fun t => t.2.1) heq
          have h3 : r1.rel_type = rt := congrArg (fun t => t.2.2) heq
          simp [h1, h2, h3]
        · intro r hr
          rcases List.mem_append.mp hr with hr1 | hr2
          · exact hrel r hr1
          · rcases List.mem_singleton.mp hr2 with rfl
            show a < db.nextId
            obtain ⟨e, he, hea⟩ := List.any_eq_true.mp hfrom
            have he2 : e.id = a := by simpa using hea
            rw [← he2]
            exact hent e he
      · rw [if_neg hfrom]
        exact ⟨hkeys, hent, hrel⟩

lemma reachable_inv (db : DB) (h : Reachable db) : StoreInv db := by
  induction h with
  | init => exact StoreInv_empty
  | upsert p fh now m hr ih => exact upsert_file_inv p fh now m _ ih
  | save p fh now m hr ih => exact save_file_inv p fh now m _ ih
  | verify a b rt v hr ih => exact save_verified_relation_inv a b rt v _ ih

/-- C3: in every database state reachable by any sequence of save_file,
upsert_file and save_verified_relation calls, no two relation rows share
the (from_id, to_name, rel_type) triple. -/
theorem relations_key_unique (db : DB) (h : Reachable db) :
    db.relations.Pairwise (fun r1 r2 => relKey r1 ≠ relKey r2) :=
  (reachable_inv db h).1

/-- C3, witness: saving a class with an inherits dependency and then
verifying a relation on it yields a state whose relation keys are pairwise
distinct. -/
theorem relations_key_unique_witness :
    (save_verified_relation 0 0 "calls" true
      (upsert_file "a.py" "h1" "t1"
        ⟨"v0.3", [PyEntity.mk "C" "class" "public" "" "Class" none
          (some 1) (some 5)
          [RawDep.dict (some "Base") (some "inherits"),
           RawDep.dict (some "helper") (some "calls")] []]⟩
        emptyDB)).relations.Pairwise
      (fun r1 r2 => relKey r1 ≠ relKey r2) :=
  relations_key_unique _
    (Reachable.verify 0 0 "calls" true
      (Reachable.upsert "a.py" "h1" "t1" _ Reachable.init))

/-- C4, witness: in a store with entities 1 and 2, verifying a calls
relation from 1 to 2 records the verified row, repeats idempotently, and a
missing target changes nothing. -/
theorem save_verified_relation_spec_witness :
    (∃ r ∈ (save_verified_relation 1 2 "calls" true witnessStore).relations,
      r.from_id = 1 ∧ r.to_id = some 2 ∧ r.rel_type = "calls" ∧
        r.is_verified = true) ∧
    save_verified_relation 1 2 "calls" true
        (save_verified_relation 1 2 "calls" true witnessStore) =
      save_verified_relation 1 2 "calls" true witnessStore ∧
    (∀ b2 : Nat, witnessStore.entities.find? (fun e => e.id == b2) = none →
      save_verified_relation 1 b2 "calls" true witnessStore = witnessStore) :=
  save_verified_relation_spec witnessStore 1 2 "calls"
    ⟨2, "g", "function", "public", none, 1, 1⟩ rfl rfl

/-! ## Theorems: get_file round trip -/

lemma get_file_eq_of_find_some (p : String) (db : DB) (fr : FileRow)
    (h : db.files.find? (fun f => f.file_path == p) = some fr) :
    get_file p db = some ⟨fr.schema_version,
      (fileRoots p db).map (buildEntityTree db.relations (fileRows p db)
        (fileRows p db).length)⟩ := by
  unfold get_file
  rw [h]

lemma upsert_empty_eq (m : CMMEntity) (p fh now : String) :
    upsert_file p fh now m emptyDB = savedState m p fh now := by
  rw [upsert_file_eq_of_find_none p fh now m emptyDB rfl]
  unfold saveFileFresh
  rw [save_entities_list_eq]
  rfl

/-- C2, amended: reading back a freshly upserted file returns the canonical
image of the model: the same schema_version and the same entity tree up to
entity ids, timestamps, the line spans (which get_file does not
reconstruct), dependency normalisation (string and dictionary entries with
a non-empty name, deduplicated per entity), truthiness filtering of
method_kind, and truncation below the depth limit. -/
theorem get_file_upsert_roundtrip (m : CMMEntity) (p fh now : String) :
    get_file p (upsert_file p fh now m emptyDB) = some (canonModel m) := by
  rw [upsert_empty_eq m p fh now]
  have hrange := flatList_range p now none 0 0 m.entities
  have hfr : (savedState m p fh now).files.find?
      (fun f => f.file_path == p) =
      some ⟨0, p, fh, m.schema_version, now, now⟩ := by
    unfold savedState
    simp [List.find?]
  rw [get_file_eq_of_find_some p (savedState m p fh now) _ hfr]
  have hrows : fileRows p (savedState m p fh now) =
      (flatList p now none 0 0 m.entities).pairs := by
    unfold fileRows savedState
    exact join_of_paired p (flatList p now none 0 0 m.entities).pairs
      (fun pr hpr => ⟨(hrange.1 pr hpr).2.1, (hrange.1 pr hpr).2.2.1⟩)
      (by
        have h2 := flatList_ids_nodup p now none 0 0 m.entities
        simpa [List.map_map, Function.comp_def] using h2)
  have hroots : fileRoots p (savedState m p fh now) =
      (flatList p now none 0 0 m.entities).pairs.filter
        (fun pr => pr.1.parent_id == none) := by
    unfold fileRoots
    rw [hrows]
    refine List.filter_congr ?_
    intro pr hpr
    cases hpp : pr.1.parent_id with
    | none => simp [hpp]
    | some j =>
      have hex : ∃ pr2 ∈ (flatList p now none 0 0 m.entities).pairs,
          pr2.1.id = j := by
        rcases (hrange.1 pr hpr).2.2.2 with h1 | ⟨j2, hj2, hj3, hj4⟩
        · rw [hpp] at h1
          cases h1
        · rw [hpp] at hj2
          injection hj2 with hj5
          subst hj5
          exact flatList_surj p now none 0 0 m.entities j hj3 hj4
      obtain ⟨pr2, hpr2, hid2⟩ := hex
      have hcontains : (((flatList p now none 0 0 m.entities).pairs.map
          (fun pr => pr.1.id)).contains j) = true := by
        have hmem : j ∈ (flatList p now none 0 0 m.entities).pairs.map
            (fun pr => pr.1.id) := by
          rw [← hid2]
          exact List.mem_map_of_mem _ hpr2
        simpa using hmem
      simp only [hpp]
      rw [hcontains]
      rfl
  rw [hroots, hrows]
  show some (⟨m.schema_version,
    (((flatList p now none 0 0 m.entities).pairs.filter
      (fun pr => pr.1.parent_id == none)).map
        (buildEntityTree (flatList p now none 0 0 m.entities).rels
          (flatList p now none 0 0 m.entities).pairs
          (flatList p now none 0 0 m.entities).pairs.length))⟩ : CMMEntity) =
    some (canonModel m)
  rw [build_list_correct p now (flatList p now none 0 0 m.entities).pairs
    (flatList p now none 0 0 m.entities).rels m.entities none 0 0
    (flatList p now none 0 0 m.entities).pairs.length
    (fun q hq => nomatch hq) (fun i h1 h2 => rfl) (fun i h1 h2 => rfl)
    (le_refl _)]
  rfl

/-- C2, counterexample: a function entity saved with line span 1-2 is read
back without its line span, so the returned model is not equal to the saved
one even up to entity ids and timestamps (which this embedding already
quotients away). -/
theorem get_file_upsert_not_inverse :
    get_file "a.py" (upsert_file "a.py" "h" "t"
      ⟨"v0.3", [PyEntity.mk "f" "function" "public" "" "Method"
        (some "instance") (some 1) (some 2) [] []]⟩ emptyDB) =
      some ⟨"v0.3", [PyEntity.mk "f" "function" "public" "" "Method"
        (some "instance") none none [] []]⟩ ∧
    (⟨"v0.3", [PyEntity.mk "f" "function" "public" "" "Method"
        (some "instance") none none [] []]⟩ : CMMEntity) ≠
      ⟨"v0.3", [PyEntity.mk "f" "function" "public" "" "Method"
        (some "instance") (some 1) (some 2) [] []]⟩ := by
  constructor
  · rfl
  · intro h
    have h2 := congrArg (fun mm => mm.entities) h
    simp only [List.cons.injEq] at h2
    have h3 := h2.1
    injection h3
    simp_all

/-- C9: an absent or empty definition result parses to absence; a result
array is reduced to its first element; a single location object yields a
Location carrying its uri and the line and character of the start of its
range, each defaulting to 0 or the empty string when missing. -/
theorem from_lsp_response_spec :
    (Location.from_lsp_response .null = none) ∧
    (Location.from_lsp_response (.arr []) = none) ∧
    (Location.from_lsp_response (.obj []) = none) ∧
    (∀ (x : JVal) (xs : List JVal),
      Location.from_lsp_response (.arr (x :: xs)) = some (extractLocation x)) ∧
    (∀ (u : String) (l c : Int),
      Location.from_lsp_response
        (.obj [("uri", .str u),
               ("range", .obj [("start",
                 .obj [("line", .num l), ("character", .num c)])])]) =
        some ⟨.str u, .num l, .num c⟩) ∧
    (∀ u : String,
      Location.from_lsp_response (.obj [("uri", .str u)]) =
        some ⟨.str u, .num 0, .num 0⟩) := by
  refine ⟨rfl, rfl, rfl, fun x xs => rfl, fun u l c => rfl, fun u => rfl⟩

end CMM
